import Mathlib

/-!
Verification of the EPUB TOC fixer (`src/toc_fixer`).

The Python sources are shallowly embedded below.  Conventions:

* Python dicts describing TOC items carry the keys `title`, `href`, `level`
  and `children`; these are the only keys the verified operations read or
  write, so an item is modelled as the inductive `Item` with exactly those
  fields (other keys such as `id` are copied through unchanged by
  `dict.copy()` and never inspected).
* Python string methods (`lower`, `strip`, `isalnum`, ...) and the `re`
  character classes `\d`, `\s`, `\w` are Unicode-aware; the identifiers and
  titles this program manipulates are ASCII and we model the character
  classes over ASCII.
* Python regexes are embedded as hand-written matchers.  Every pattern used
  by the program is anchored or otherwise deterministic enough that the
  backtracking order of the `re` engine is reproduced explicitly; each
  matcher's comment records the pattern it implements.
* stateful code (the rebuild stack, mutating accumulators) is translated to
  explicit state passing.
-/

/-! ## ASCII character model -/

/-- Python `\s` over ASCII: space, tab, newline, carriage return,
vertical tab, form feed. -/
def pyIsSpace (c : Char) : Bool :=
  c = ' ' || c = '\t' || c = '\n' || c = '\r' || c = '\x0b' || c = '\x0c'

/-- `str.lower` over ASCII. -/
def lowerStr (s : String) : String := ⟨s.data.map Char.toLower⟩

/-- `str.strip()` over ASCII whitespace. -/
def stripChars (cs : List Char) : List Char :=
  ((cs.dropWhile pyIsSpace).reverse.dropWhile pyIsSpace).reverse

def stripStr (s : String) : String := ⟨stripChars s.data⟩

/-! ## TOC data model -/

/-- A TOC item: `title`, `href`, `level`, `children`. -/
inductive Item : Type where
  | mk : String → String → Nat → List Item → Item

def Item.title : Item → String
  | .mk t _ _ _ => t

def Item.href : Item → String
  | .mk _ h _ _ => h

def Item.level : Item → Nat
  | .mk _ _ l _ => l

def Item.children : Item → List Item
  | .mk _ _ _ c => c

mutual

def decEqItem : (a b : Item) → Decidable (a = b)
  | .mk t h l cs, .mk t2 h2 l2 cs2 =>
    match String.decEq t t2 with
    | isTrue ht =>
      match String.decEq h h2 with
      | isTrue hh =>
        match Nat.decEq l l2 with
        | isTrue hl =>
          match decEqItemList cs cs2 with
          | isTrue hc => isTrue (by rw [ht, hh, hl, hc])
          | isFalse hc => isFalse (fun e => by cases e; exact hc rfl)
        | isFalse hl => isFalse (fun e => by cases e; exact hl rfl)
      | isFalse hh => isFalse (fun e => by cases e; exact hh rfl)
    | isFalse ht => isFalse (fun e => by cases e; exact ht rfl)

def decEqItemList : (as bs : List Item) → Decidable (as = bs)
  | [], [] => isTrue rfl
  | a :: as, b :: bs =>
    match decEqItem a b with
    | isTrue h1 =>
      match decEqItemList as bs with
      | isTrue h2 => isTrue (by rw [h1, h2])
      | isFalse h2 => isFalse (fun e => by cases e; exact h2 rfl)
    | isFalse h1 => isFalse (fun e => by cases e; exact h1 rfl)
  | [], _ :: _ => isFalse (fun e => by cases e)
  | _ :: _, [] => isFalse (fun e => by cases e)

end

instance : DecidableEq Item := decEqItem

/-- The parsed TOC structure (`toc_structure` dict): the `items` key plus the
keys that the fixers copy through unchanged, represented by `title`. -/
structure Toc where
  title : String
  items : List Item
deriving DecidableEq

/-! ## NestingFixer: title pattern matchers (`nesting_fixer.py`)

All patterns are compiled with `re.IGNORECASE` and start with `^`, and are
used via `pattern.search`, which for a `^`-anchored pattern (no `MULTILINE`)
means a match at the start of the string.  In each of the patterns below the
greedy quantifiers never need to backtrack (each quantified class is disjoint
from the character that must follow), so maximal-munch matchers are exact. -/

/-- Case-insensitive literal: consume `lit` (given lowercase) from `cs`. -/
def ciLit : List Char → List Char → Option (List Char)
  | [], cs => some cs
  | _, [] => none
  | l :: ls, c :: cs => if c.toLower = l then ciLit ls cs else none

/-- `p+` (greedy, at least one). -/
def drop1While (p : Char → Bool) : List Char → Option (List Char)
  | c :: rest => if p c then some (rest.dropWhile p) else none
  | [] => none

/-- `c?` (greedy); exact here because in every use the character after the
optional one can never also begin the rest of the pattern. -/
def optChar (c : Char) : List Char → List Char
  | d :: rest => if d = c then rest else d :: rest
  | [] => []

/-- One single character satisfying `p`. -/
def dropOne (p : Char → Bool) : List Char → Option (List Char)
  | c :: rest => if p c then some rest else none
  | [] => none

/-- `^<word>\s+\d+` (IGNORECASE). -/
def wordNum (w : String) (cs : List Char) : Bool :=
  (do
    let r ← ciLit w.data cs
    let r ← drop1While pyIsSpace r
    drop1While Char.isDigit r).isSome

def isRomanChar (c : Char) : Bool :=
  c.toLower = 'i' || c.toLower = 'v' || c.toLower = 'x' || c.toLower = 'l' ||
  c.toLower = 'c' || c.toLower = 'd' || c.toLower = 'm'

/-- `CHAPTER_PATTERNS`: any of
`^chapter\s+\d+`, `^ch\.?\s*\d+`, `^part\s+\d+`, `^book\s+\d+`,
`^unit\s+\d+`, `^module\s+\d+`, `^\d+\.\s+[A-Z]`, `^[IVXLCDM]+\.\s+`
(IGNORECASE, so `[A-Z]` is any letter). -/
def chapterPatterns (cs : List Char) : Bool :=
  wordNum "chapter" cs ||
  (do
    let r ← ciLit "ch".data cs
    let r := optChar '.' r
    let r := r.dropWhile pyIsSpace
    drop1While Char.isDigit r).isSome ||
  wordNum "part" cs || wordNum "book" cs || wordNum "unit" cs ||
  wordNum "module" cs ||
  (do
    let r ← drop1While Char.isDigit cs
    let r ← dropOne (fun c => c = '.') r
    let r ← drop1While pyIsSpace r
    dropOne Char.isAlpha r).isSome ||
  (do
    let r ← drop1While isRomanChar cs
    let r ← dropOne (fun c => c = '.') r
    drop1While pyIsSpace r).isSome

/-- `SECTION_PATTERNS`: any of
`^section\s+\d+`, `^sec\.?\s*\d+`, `^\d+\.\d+\s+`, `^[A-Z]\.\s+`,
`^lesson\s+\d+` (IGNORECASE). -/
def sectionPatterns (cs : List Char) : Bool :=
  wordNum "section" cs ||
  (do
    let r ← ciLit "sec".data cs
    let r := optChar '.' r
    let r := r.dropWhile pyIsSpace
    drop1While Char.isDigit r).isSome ||
  (do
    let r ← drop1While Char.isDigit cs
    let r ← dropOne (fun c => c = '.') r
    let r ← drop1While Char.isDigit r
    drop1While pyIsSpace r).isSome ||
  (do
    let r ← dropOne Char.isAlpha cs
    let r ← dropOne (fun c => c = '.') r
    drop1While pyIsSpace r).isSome ||
  wordNum "lesson" cs

/-- `SUBSECTION_PATTERNS`: any of
`^subsection\s+\d+`, `^\d+\.\d+\.\d+\s+`, `^[a-z]\)\s+`, `^\(\d+\)\s+`
(IGNORECASE). -/
def subsectionPatterns (cs : List Char) : Bool :=
  wordNum "subsection" cs ||
  (do
    let r ← drop1While Char.isDigit cs
    let r ← dropOne (fun c => c = '.') r
    let r ← drop1While Char.isDigit r
    let r ← dropOne (fun c => c = '.') r
    let r ← drop1While Char.isDigit r
    drop1While pyIsSpace r).isSome ||
  (do
    let r ← dropOne Char.isAlpha cs
    let r ← dropOne (fun c => c = ')') r
    drop1While pyIsSpace r).isSome ||
  (do
    let r ← dropOne (fun c => c = '(') cs
    let r ← drop1While Char.isDigit r
    let r ← dropOne (fun c => c = ')') r
    drop1While pyIsSpace r).isSome

/-- `TOP_LEVEL_ITEMS`. -/
def TOP_LEVEL_ITEMS : List String :=
  ["cover", "title page", "copyright", "dedication", "acknowledgments",
   "acknowledgements", "preface", "foreword", "introduction", "prologue",
   "contents", "table of contents", "epilogue", "afterword", "appendix",
   "appendices", "glossary", "bibliography", "references", "index",
   "about the author", "colophon"]

/-- `str.startswith`, on character lists. -/
def startsWithList : List Char → List Char → Bool
  | [], _ => true
  | _ :: _, [] => false
  | a :: as, b :: bs => a = b && startsWithList as bs

/-- `NestingFixer._is_top_level`: the lowercased, stripped title equals a
top-level word or starts with it followed by a space. -/
def is_top_level (title : String) : Bool :=
  let t := stripStr (lowerStr title)
  TOP_LEVEL_ITEMS.any (fun w => t = w || startsWithList (w ++ " ").data t.data)

/-- Inner loop of `_infer_level_from_numbering`'s regex
`^(\d+(?:\.\d+)*)[.\s]`: called at a boundary just after a digit group,
returns the number of extra `.\d+` groups in the greediest capture that is
still followed by a `.` or whitespace character (the `re` engine prefers the
longest capture and backtracks group by group when the trailing `[.\s]`
fails). -/
def numTailLevelF : Nat → List Char → Option Nat
  | fuel + 1, '.' :: d :: rest =>
    if d.isDigit then
      match numTailLevelF fuel (rest.dropWhile Char.isDigit) with
      | some k => some (k + 1)
      -- extending fails; stopping here is fine since the next char is `.`
      | none => some 0
    else some 0
  | _ + 1, ['.'] => some 0
  | _ + 1, c :: _ => if pyIsSpace c then some 0 else none
  | _ + 1, [] => none
  | 0, _ => none

/-- Entry point with enough fuel: every recursive step consumes at least two
characters, so `cs.length` steps can never run out. -/
def numTailLevel (cs : List Char) : Option Nat := numTailLevelF cs.length cs

/-- `NestingFixer._infer_level_from_numbering`: match
`^(\d+(?:\.\d+)*)[.\s]`, count the dots in the captured group, cap at 3. -/
def infer_level_from_numbering (title : String) : Option Nat :=
  match title.data with
  | c :: _ =>
    if c.isDigit then
      (numTailLevel (title.data.dropWhile Char.isDigit)).map (fun l => min l 3)
    else none
  | [] => none

/-- The level that `_detect_levels` derives from a (stripped) title alone:
top-level word -> 0, chapter pattern -> 0, section pattern -> 1, subsection
pattern -> 2, else the numbering inference; `none` when no pattern applies
(the Python code then keeps the item's current `level`). -/
def detectTitleLevel (title : String) : Option Nat :=
  if is_top_level title then some 0
  else if chapterPatterns title.data then some 0
  else if sectionPatterns title.data then some 1
  else if subsectionPatterns title.data then some 2
  else infer_level_from_numbering title

/-- `NestingFixer._detect_levels`, per item: the title is stripped first
(`title = item.get('title', '').strip()`); when no pattern matches the item's
stored `level` is kept. -/
def detect_level (i : Item) : Nat :=
  match detectTitleLevel (stripStr i.title) with
  | some l => l
  | none => i.level

/-- `NestingFixer._detect_levels` over the flat list. -/
def detect_levels (flat : List Item) : List (Item × Nat) :=
  flat.map (fun i => (i, detect_level i))

/-! `NestingFixer._flatten_items`: preorder flattening; each flat item is a
copy with `level` set to its depth and `children` cleared. -/

mutual

/-- One item: its flat copy, then its flattened children. -/
def flatten_one : Item → Nat → List Item
  | .mk t h _ cs, lvl => Item.mk t h lvl [] :: flatten_items cs (lvl + 1)

/-- `NestingFixer._flatten_items`. -/
def flatten_items : List Item → Nat → List Item
  | [], _ => []
  | i :: rest, lvl => flatten_one i lvl ++ flatten_items rest lvl

end

/-! ### `NestingFixer._rebuild_hierarchy` as a stack machine

The Python code keeps a stack of `(children_list, level)` pairs rooted at a
sentinel `(root, -1)` and appends each item to the children list of the first
stack entry with smaller level.  Because the Python children lists are
mutated in place after the item has been appended, the faithful functional
translation attaches an item to its parent when the item is *popped* (at
which point its own children are complete); the sentinel is represented by
keeping the completed root forest alongside the stack of open items (top of
stack first).  Levels are natural numbers, so the sentinel's `-1` is strictly
below every level and the sentinel itself is never popped, exactly as the
`len(stack) > 1` guard ensures. -/

/-- Append a finished child to a parent's children list
(`parent_children.append(item)`). -/
def addChild (p c : Item) : Item :=
  Item.mk p.title p.href p.level (p.children ++ [c])

/-- Pop the top frame: attach it to the frame below, or move it to the
completed root forest when it is the last open item. -/
def closeTop : List Item × List Item → List Item × List Item
  | (root, []) => (root, [])
  | (root, [f]) => (root ++ [f], [])
  | (root, f :: g :: rest) => (root, addChild g f :: rest)

/-- `while len(stack) > 1 and stack[-1][1] >= level: stack.pop()`, with fuel
equal to the stack height (each pop removes exactly one frame, so the fuel is
never exhausted with a non-empty stack). -/
def popGEF : Nat → Nat → List Item × List Item → List Item × List Item
  | _, _, (root, []) => (root, [])
  | 0, _, st => st
  | fuel + 1, l, (root, f :: rest) =>
    if l ≤ f.level then popGEF fuel l (closeTop (root, f :: rest))
    else (root, f :: rest)

def popGE (l : Nat) (st : List Item × List Item) : List Item × List Item :=
  popGEF st.2.length l st

/-- Process one `(item, level)` pair: pop to the right parent, then push a
clean copy (`new_item['level'] = level; new_item['children'] = []`). -/
def stepItem (st : List Item × List Item) (p : Item × Nat) :
    List Item × List Item :=
  let st' := popGE p.2 st
  (st'.1, Item.mk p.1.title p.1.href p.2 [] :: st'.2)

/-- Pop every remaining open frame at the end of the loop (fuel as above). -/
def flushAllF : Nat → List Item × List Item → List Item
  | _, (root, []) => root
  | 0, st => st.1
  | fuel + 1, (root, f :: rest) => flushAllF fuel (closeTop (root, f :: rest))

def flushAll (st : List Item × List Item) : List Item := flushAllF st.2.length st

/-- `NestingFixer._rebuild_hierarchy`. -/
def rebuild_hierarchy (ps : List (Item × Nat)) : List Item :=
  flushAll (ps.foldl stepItem ([], []))

/-- `NestingFixer.fix_nesting`: flatten, detect levels, rebuild; all other
keys of the structure are copied through. -/
def fix_nesting (t : Toc) : Toc :=
  { t with items := rebuild_hierarchy (detect_levels (flatten_items t.items 0)) }

/-! ### Spec-side reconstruction (for the refinement claim)

The spec states the contract of the Hierarchy Reconstructor as: *every item's
parent is the nearest preceding item with strictly smaller level, and
siblings retain document order*.  The function below is written from those
words: the children of an item of level `l` are exactly the maximal following
run of items with level `> l` (each of those has the item as the nearest
preceding strictly-smaller-level item), and the next item of level `≤ l`
starts the next sibling. -/

def nestBySpec (ps : List (Item × Nat)) : List Item :=
  match ps with
  | [] => []
  | (i, l) :: rest =>
    Item.mk i.title i.href l
        (nestBySpec (rest.takeWhile (fun q => l < q.2)))
      :: nestBySpec (rest.dropWhile (fun q => l < q.2))
termination_by ps.length
decreasing_by
  · simp only [List.length_cons]
    exact Nat.lt_succ_of_le (List.takeWhile_sublist _).length_le
  · simp only [List.length_cons]
    exact Nat.lt_succ_of_le (List.dropWhile_sublist _).length_le

/-! ### Predicates used by the claims about the rebuilt hierarchy -/

mutual

/-- Claim-side invariant: every child's `level` equals the parent's `level + 1`. -/
def plusOneItem : Item → Bool
  | .mk _ _ l cs => cs.all (fun c => decide (c.level = l + 1)) && plusOneForest cs

def plusOneForest : List Item → Bool
  | [] => true
  | c :: cs => plusOneItem c && plusOneForest cs

end

mutual

/-- Weaker invariant that the code actually guarantees: every child's `level`
is strictly greater than its parent's `level`. -/
def strictItem : Item → Bool
  | .mk _ _ l cs => cs.all (fun c => decide (l < c.level)) && strictForest cs

def strictForest : List Item → Bool
  | [] => true
  | c :: cs => strictItem c && strictForest cs

end

/-- Projection to the fields the reconstruction depends on. -/
def projTH (i : Item) : String × String := (i.title, i.href)

def projTHL (p : Item × Nat) : String × String × Nat := (p.1.title, p.1.href, p.2)

/-- A structure all of whose (flattened) items have a title that determines
the detected level, i.e. matches a top-level word, a chapter / section /
subsection pattern or the numbering pattern.  For such items
`_detect_levels` never falls back to the stored `level`. -/
def TitleDriven (t : Toc) : Prop :=
  ∀ i ∈ flatten_items t.items 0, (detectTitleLevel (stripStr i.title)).isSome = true

instance (t : Toc) : Decidable (TitleDriven t) := by
  unfold TitleDriven
  infer_instance

/-! ## TOCFixer.detect_format (`toc_fixer.py`) -/

/-- Python `needle in hay` on strings: substring containment. -/
def containsSub (hay needle : List Char) : Bool :=
  match hay with
  | [] => needle.isEmpty
  | _ :: rest => startsWithList needle hay || containsSub rest needle

def strIn (needle hay : String) : Bool := containsSub hay.data needle.data

/-- `TOCFixer.detect_format`: `'ncx'` when the lowercased content contains
`<ncx` or `navmap`; else `'nav'` when it contains `<nav` and one of
`epub:type` / `toc`; else `'generic'`. -/
def detect_format (xml_content : String) : String :=
  let content_lower := lowerStr xml_content
  if strIn "<ncx" content_lower || strIn "navmap" content_lower then "ncx"
  else if strIn "<nav" content_lower &&
      (strIn "epub:type" content_lower || strIn "toc" content_lower) then "nav"
  else "generic"

/-- Spec-side dialect-A (NCX navigation-map) signature, from the claim's
words. -/
def ncxSignature (s : String) : Bool :=
  strIn "<ncx" (lowerStr s) || strIn "navmap" (lowerStr s)

/-- Spec-side dialect-B (navigation landmark with a table-of-contents role
indicator) signature, from the claim's words. -/
def navSignature (s : String) : Bool :=
  strIn "<nav" (lowerStr s) &&
    (strIn "epub:type" (lowerStr s) || strIn "toc" (lowerStr s))

/-! ## LinkFixer.deduplicate_links (`link_fixer.py`) -/

mutual

/-- The body of `_deduplicate_items` for one kept item: copy it and
deduplicate its children with the same shared `seen` set. -/
def dedup_sub : Item → List String → Item × List String
  | .mk t h l cs, seen =>
    match dedup_list cs seen with
    | (kids, seen2) => (Item.mk t h l kids, seen2)

/-- `LinkFixer._deduplicate_items`: the `seen` set (modelled as the list of
hrefs added so far) is threaded through the whole preorder traversal; an item
with a previously seen non-empty href is skipped together with its entire
subtree; a kept item's href is added before its children are processed. -/
def dedup_list : List Item → List String → List Item × List String
  | [], seen => ([], seen)
  | i :: rest, seen =>
    if i.href ≠ "" ∧ i.href ∈ seen then dedup_list rest seen
    else
      match dedup_sub i (if i.href ≠ "" then i.href :: seen else seen) with
      | (i2, seen2) =>
        match dedup_list rest seen2 with
        | (others, seen3) => (i2 :: others, seen3)

end

/-- `LinkFixer.deduplicate_links`. -/
def deduplicate_links (t : Toc) : Toc :=
  { t with items := (dedup_list t.items []).1 }

mutual

/-- All non-empty hrefs of a tree, in document (preorder) order. -/
def hrefsOfItem : Item → List String
  | .mk _ h _ cs => (if h ≠ "" then [h] else []) ++ hrefsOfForest cs

def hrefsOfForest : List Item → List String
  | [] => []
  | i :: rest => hrefsOfItem i ++ hrefsOfForest rest

end

/-- Spec-side "keep the first occurrence" on a list of hrefs. -/
def firstOccurrences : List String → List String → List String
  | [], _ => []
  | h :: rest, seen =>
    if h ∈ seen then firstOccurrences rest seen
    else h :: firstOccurrences rest (h :: seen)

mutual

/-- The title of the first item (in document order) with the given href. -/
def firstTitleWithItem : Item → String → Option String
  | .mk t h _ cs, href =>
    if h = href then some t else firstTitleWithForest cs href

def firstTitleWithForest : List Item → String → Option String
  | [], _ => none
  | i :: rest, href =>
    match firstTitleWithItem i href with
    | some t => some t
    | none => firstTitleWithForest rest href

end

/-! ## LinkFixer: URL handling (`link_fixer.py`)

`urllib.parse.urlparse` is modelled after CPython 3.11 (`urlsplit` plus the
params split), including the WHATWG control-character stripping.  `unquote`
and `quote` are modelled at the byte level with UTF-8 encoding of code
points; multi-byte percent-sequences are decoded byte-wise (ASCII model, as
stated at the top of the file). -/

def isSchemeChar (c : Char) : Bool :=
  c.isAlpha || c.isDigit || c = '+' || c = '-' || c = '.'

structure UrlParts where
  scheme : String
  netloc : String
  path : String
  params : String
  query : String
  fragment : String
deriving DecidableEq

/-- Strip C0 controls and spaces at both ends, remove tab / CR / LF
everywhere (CPython's WHATWG cleanup in `urlsplit`). -/
def whatwgClean (cs : List Char) : List Char :=
  let stripped :=
    ((cs.dropWhile (fun c => c ≤ ' ')).reverse.dropWhile (fun c => c ≤ ' ')).reverse
  stripped.filter (fun c => decide (c ≠ '\t') && decide (c ≠ '\r') && decide (c ≠ '\n'))

/-- Split at the first occurrence of `c`: `(before, after)`. -/
def splitFirst (c : Char) : List Char → Option (List Char × List Char)
  | [] => none
  | d :: rest =>
    if d = c then some ([], rest)
    else (splitFirst c rest).map (fun p => (d :: p.1, p.2))

/-- `url.find(':')` plus the scheme validity test of `urlsplit`. -/
def splitScheme (cs : List Char) : List Char × List Char :=
  match splitFirst ':' cs with
  | some (before, after) =>
    match before with
    | [] => ([], cs)
    | c0 :: restb =>
      if c0.isAlpha && restb.all isSchemeChar then
        ((c0 :: restb).map Char.toLower, after)
      else ([], cs)
  | none => ([], cs)

/-- `_splitnetloc`: everything up to the next `/`, `?` or `#`. -/
def splitNetloc (cs : List Char) : List Char × List Char :=
  (cs.takeWhile (fun c => decide (c ≠ '/') && decide (c ≠ '?') && decide (c ≠ '#')),
   cs.dropWhile (fun c => decide (c ≠ '/') && decide (c ≠ '?') && decide (c ≠ '#')))

/-- Index of the last occurrence of `c`. -/
def lastIdxOf (c : Char) (cs : List Char) : Option Nat :=
  (List.range cs.length).foldl
    (fun acc i => if cs.getD i ' ' = c then some i else acc) none

/-- Index of the first occurrence of `c` at position `≥ start`. -/
def firstIdxFrom (c : Char) (start : Nat) (cs : List Char) : Option Nat :=
  (List.range cs.length).foldl
    (fun acc i =>
      match acc with
      | some _ => acc
      | none => if start ≤ i ∧ cs.getD i ' ' = c then some i else none) none

/-- `urllib.parse._splitparams`. -/
def splitparams (cs : List Char) : List Char × List Char :=
  if cs.contains '/' then
    match lastIdxOf '/' cs with
    | some s =>
      match firstIdxFrom ';' s cs with
      | some i => (cs.take i, cs.drop (i + 1))
      | none => (cs, [])
    | none => (cs, [])
  else
    match firstIdxFrom ';' 0 cs with
    | some i => (cs.take i, cs.drop (i + 1))
    | none => (cs, [])

/-- `urllib.parse.urlparse` (scheme, then `//netloc`, then fragment at the
first `#`, then query at the first `?`, then params). -/
def urlparse (url : String) : UrlParts :=
  let cs := whatwgClean url.data
  let sr := splitScheme cs
  let scheme := sr.1
  let cs := sr.2
  let nr :=
    match cs with
    | '/' :: '/' :: rest => splitNetloc rest
    | _ => ([], cs)
  let netloc := nr.1
  let cs := nr.2
  let fr :=
    match splitFirst '#' cs with
    | some (a, b) => (a, b)
    | none => (cs, [])
  let cs := fr.1
  let fragment := fr.2
  let qr :=
    match splitFirst '?' cs with
    | some (a, b) => (a, b)
    | none => (cs, [])
  let cs := qr.1
  let query := qr.2
  let pr := if cs.contains ';' then splitparams cs else (cs, [])
  ⟨⟨scheme⟩, ⟨netloc⟩, ⟨pr.1⟩, ⟨pr.2⟩, ⟨query⟩, ⟨fragment⟩⟩

def pyIsHexDigit (c : Char) : Bool :=
  c.isDigit || ('a' ≤ c && c ≤ 'f') || ('A' ≤ c && c ≤ 'F')

def hexVal (c : Char) : Nat :=
  if c.isDigit then c.toNat - '0'.toNat
  else if 'a' ≤ c && c ≤ 'f' then c.toNat - 'a'.toNat + 10
  else c.toNat - 'A'.toNat + 10

/-- `urllib.parse.unquote`, byte-wise: a `%` followed by two hex digits
becomes the byte value; anything else is kept verbatim. -/
def unquoteChars : List Char → List Char
  | '%' :: a :: b :: rest =>
    if pyIsHexDigit a && pyIsHexDigit b then
      Char.ofNat (hexVal a * 16 + hexVal b) :: unquoteChars rest
    else '%' :: unquoteChars (a :: b :: rest)
  | c :: rest => c :: unquoteChars rest
  | [] => []

/-- UTF-8 bytes of a code point. -/
def utf8Bytes (n : Nat) : List Nat :=
  if n < 128 then [n]
  else if n < 2048 then [192 + n / 64, 128 + n % 64]
  else if n < 65536 then
    [224 + n / 4096, 128 + (n / 64) % 64, 128 + n % 64]
  else
    [240 + n / 262144, 128 + (n / 4096) % 64, 128 + (n / 64) % 64, 128 + n % 64]

def hexDigitU (n : Nat) : Char :=
  if n < 10 then Char.ofNat ('0'.toNat + n) else Char.ofNat ('A'.toNat + n - 10)

def pctEncodeByte (b : Nat) : List Char := ['%', hexDigitU (b / 16), hexDigitU (b % 16)]

/-- `urllib.parse.quote(char, safe='')`: the always-safe characters
(letters, digits, `_.-~`) are never quoted; everything else is
percent-encoded byte-wise. -/
def quoteChar (c : Char) : List Char :=
  if c.isAlphanum || c = '_' || c = '.' || c = '-' || c = '~' then [c]
  else (utf8Bytes c.toNat).foldr (fun b acc => pctEncodeByte b ++ acc) []

/-- `LinkFixer._fix_url_encoding`: decode any existing percent-encoding,
replace spaces by `%20`, then keep alphanumerics and `-_./%#` and
percent-encode the rest. -/
def fix_url_encoding (path : String) : String :=
  if path = "" then path
  else
    let decoded := unquoteChars path.data
    let fixed := decoded.foldr
      (fun c acc => if c = ' ' then '%' :: '2' :: '0' :: acc else c :: acc) []
    ⟨fixed.foldr (fun c acc =>
      if c.isAlphanum || c = '-' || c = '_' || c = '.' || c = '/' || c = '%' || c = '#'
        then c :: acc
      else if c = ' ' then '%' :: '2' :: '0' :: acc
      else quoteChar c ++ acc) []⟩

/-- Python `\w` over ASCII plus the extra fragment characters `-.:`
(the class `[\w\-._:]`). -/
def isFragClassChar (c : Char) : Bool :=
  c.isAlphanum || c = '_' || c = '-' || c = '.' || c = ':'

/-- `LinkFixer._fix_fragment`: drop characters outside `[\w\-._:]`, then
prepend `_` when the result does not start with a letter or underscore. -/
def fix_fragment (fragment : String) : String :=
  if fragment = "" then fragment
  else
    let fixed := fragment.data.filter isFragClassChar
    match fixed with
    | [] => ⟨[]⟩
    | c :: rest =>
      if c.isAlpha || c = '_' then ⟨c :: rest⟩ else ⟨'_' :: c :: rest⟩

/-- The external schemes skipped by `_fix_link` / `_check_link`. -/
def EXTERNAL_SCHEMES : List String := ["http", "https", "mailto", "ftp"]

/-- `os.path.join` for two POSIX paths. -/
def pathJoin (a b : String) : String :=
  if b.data.head? = some '/' then b
  else if a = "" ∨ a.data.getLast? = some '/' then a ++ b
  else a ++ "/" ++ b

/-- `os.path.normpath` (POSIX). -/
def normpath (p : String) : String :=
  if p = "" then "."
  else
    let slashes : Nat :=
      if startsWithList "//".data p.data ∧ ¬ startsWithList "///".data p.data
        then 2
      else if p.data.head? = some '/' then 1 else 0
    let comps := (⟨p.data⟩ : String).splitOn "/"
    let newComps := comps.foldl (fun acc comp =>
      if comp = "" ∨ comp = "." then acc
      else if comp ≠ ".."
          ∨ (slashes = 0 ∧ acc = [])
          ∨ (acc.getLast? = some "..") then acc ++ [comp]
      else if acc ≠ [] then acc.dropLast
      else acc) []
    let joined := String.intercalate "/" newComps
    let out := ⟨List.replicate slashes '/' ++ joined.data⟩
    if out = "" then "." else out

/-- `os.path.splitext` (POSIX): split at the last dot of the basename unless
the basename consists only of leading dots. -/
def splitext (p : String) : String × String :=
  let cs := p.data
  match lastIdxOf '.' cs with
  | none => (p, "")
  | some dot =>
    let sep := match lastIdxOf '/' cs with
      | some s => (s : Int)
      | none => -1
    if (dot : Int) ≤ sep then (p, "")
    else
      -- all characters strictly between sep and dot must not all be dots
      let nameStart := (sep + 1).toNat
      if ((cs.drop nameStart).take (dot - nameStart)).all (fun c => c = '.')
        then (p, "")
      else (⟨cs.take dot⟩, ⟨cs.drop dot⟩)

/-- `LinkFixer._find_file_case_insensitive`, with the directory listing
supplied by an oracle (`os.listdir`; `none` models an `OSError`). -/
def find_file_case_insensitive
    (listdir : String → Option (List String)) (base : String) (p : String) :
    Option String :=
  let parts := (⟨p.data.map (fun c => if c = '\\' then '/' else c)⟩ : String).splitOn "/"
  let rec walk : List String → String → List String → Option String
    | [], _, resParts =>
      if resParts ≠ [] then some (String.intercalate "/" resParts) else none
    | part :: rest, current, resParts =>
      if part = "" then walk rest current resParts
      else
        match listdir current with
        | none => none
        | some entries =>
          match entries.find? (fun e => lowerStr e = lowerStr part) with
          | none => none
          | some matched =>
            walk rest (pathJoin current matched) (resParts ++ [matched])
  walk parts base []

/-- `LinkFixer._fix_file_path`, with `os.path.isfile` as an oracle (the
existence cache only affects performance). -/
def fix_file_path (isfile : String → Bool)
    (listdir : String → Option (List String)) (base : String) (p : String) :
    String :=
  let normalized := normpath p
  let full := pathJoin base normalized
  if isfile full then p
  else
    match find_file_case_insensitive listdir base normalized with
    | some fixedPath => fixedPath
    | none =>
      let be := splitext normalized
      match ([".xhtml", ".html", ".htm", ".xml"].find?
          (fun newExt => isfile (pathJoin base (be.1 ++ newExt)))) with
      | some newExt => be.1 ++ newExt
      | none => p

/-- `LinkFixer._fix_link`: skip external schemes, re-encode the path, fix
the fragment, optionally repair the file path against the content root, and
reassemble. -/
def fix_link (base : Option String) (isfile : String → Bool)
    (listdir : String → Option (List String)) (href : String) : String :=
  if href = "" then href
  else
    let parsed := urlparse href
    if parsed.scheme ∈ EXTERNAL_SCHEMES then href
    else
      let fixed_path := fix_url_encoding parsed.path
      let fixed_fragment := fix_fragment parsed.fragment
      let fixed_path :=
        match base with
        | some b => if b ≠ "" ∧ fixed_path ≠ "" then
                      fix_file_path isfile listdir b fixed_path
                    else fixed_path
        | none => fixed_path
      if fixed_fragment ≠ "" then fixed_path ++ "#" ++ fixed_fragment
      else fixed_path

/-! Claim-side encodings for C7. -/

/-- The encoding rule exactly as the claim states it: spaces become `%20`,
alphanumerics and `-_./%#` pass through, every other character is
percent-escaped. -/
def claimEncodeChar (c : Char) : List Char :=
  if c = ' ' then ['%', '2', '0']
  else if c.isAlphanum || c = '-' || c = '_' || c = '.' || c = '/' || c = '%' || c = '#'
    then [c]
  else (utf8Bytes c.toNat).foldr (fun b acc => pctEncodeByte b ++ acc) []

def claimEncodePath (p : String) : String :=
  ⟨(unquoteChars p.data).foldr (fun c acc => claimEncodeChar c ++ acc) []⟩

/-- The amended rule: identical, except that the always-safe tilde also
passes through unchanged (because `urllib.parse.quote` never escapes `~`). -/
def amendedEncodeChar (c : Char) : List Char :=
  if c = ' ' then ['%', '2', '0']
  else if c.isAlphanum || c = '-' || c = '_' || c = '.' || c = '/' || c = '%' || c = '#'
      || c = '~'
    then [c]
  else (utf8Bytes c.toNat).foldr (fun b acc => pctEncodeByte b ++ acc) []

def amendedEncodePath (p : String) : String :=
  ⟨(unquoteChars p.data).foldr (fun c acc => amendedEncodeChar c ++ acc) []⟩

/-- Sanitized-fragment shape `[A-Za-z_][\w\-.:]*` from the claim. -/
def fragShape (s : String) : Bool :=
  match s.data with
  | [] => false
  | c :: rest => (c.isAlpha || c = '_') && rest.all isFragClassChar

/-! ## CitationFixer (`citation_fixer.py`)

Each `re` pattern is implemented as an explicit matcher; lazy (`*?`) parts
scan left to right for the first viable continuation, greedy parts take the
maximal run (and, for `[^>]*` followed by further material, try the longest
split first, exactly like the backtracking engine). -/

/-- Case-insensitive literal that also returns the matched original text. -/
def ciLitKeep : List Char → List Char → Option (List Char × List Char)
  | [], cs => some ([], cs)
  | _, [] => none
  | l :: ls, c :: cs =>
    if c.toLower = l then (ciLitKeep ls cs).map (fun p => (c :: p.1, p.2))
    else none

/-- `^(<w>\d+)` (IGNORECASE), returning the captured group in original case
(`re.match` of e.g. `(ch\d+)`). -/
def matchPrefixWordDigits (w : String) (cs : List Char) : Option (List Char) :=
  match ciLitKeep w.data cs with
  | some (orig, rest) =>
    let digits := rest.takeWhile Char.isDigit
    if digits.isEmpty then none else some (orig ++ digits)
  | none => none

/-- `re.search(r'(\d+)$', s)`: the maximal all-digit suffix, if non-empty. -/
def digitSuffix (cs : List Char) : Option (List Char) :=
  let suf := (cs.reverse.takeWhile Char.isDigit).reverse
  if suf.isEmpty then none else some suf

/-- `os.path.basename` (POSIX). -/
def basename (s : String) : String :=
  ⟨(s.data.reverse.takeWhile (fun c => c ≠ '/')).reverse⟩

/-- `CitationFixer._extract_chapter_from_filename`: try `^(ch\d+)`,
`^(chapter\d+)`, `^(c\d+)` on the basename, lowercase the group. -/
def extract_chapter_from_filename (filename : String) : Option String :=
  if filename = "" then none
  else
    let bn := (basename filename).data
    match matchPrefixWordDigits "ch" bn with
    | some g => some (lowerStr ⟨g⟩)
    | none =>
      match matchPrefixWordDigits "chapter" bn with
      | some g => some (lowerStr ⟨g⟩)
      | none =>
        match matchPrefixWordDigits "c" bn with
        | some g => some (lowerStr ⟨g⟩)
        | none => none

/-- The `-.*?-bib-(\d+)$` tail of the main citation pattern: grow the lazy
gap (which may not contain a newline, since `.` excludes it) until `-bib-`
followed by a non-empty all-digit remainder is found. -/
def findBibTail : List Char → Option (List Char)
  | [] => none
  | c :: rest =>
    match ciLit "-bib-".data (c :: rest) with
    | some tail =>
      if ¬ tail.isEmpty ∧ tail.all Char.isDigit then some tail
      else if c = '\n' then none else findBibTail rest
    | none => if c = '\n' then none else findBibTail rest

/-- `^(ch\d+)-.*?-bib-(\d+)$` (IGNORECASE). -/
def parseMainCitation (cs : List Char) : Option (List Char × List Char) :=
  match matchPrefixWordDigits "ch" cs with
  | none => none
  | some g1 =>
    match cs.drop g1.length with
    | '-' :: rest => (findBibTail rest).map (fun d => (g1, d))
    | _ => none

/-- Lazy `.*?(\d+)$`: the first position whose remainder is a non-empty run
of digits reaching the end (no newline may be crossed). -/
def digitTailLazy : List Char → Option (List Char)
  | [] => none
  | c :: rest =>
    if (c :: rest).all Char.isDigit then some (c :: rest)
    else if c = '\n' then none else digitTailLazy rest

/-- The `.*?bib.*?(\d+)$` tail of the first alternative pattern. -/
def findBibThenDigits : List Char → Option (List Char)
  | [] => none
  | c :: rest =>
    match ciLit "bib".data (c :: rest) with
    | some r2 =>
      match digitTailLazy r2 with
      | some d => some d
      | none => if c = '\n' then none else findBibThenDigits rest
    | none => if c = '\n' then none else findBibThenDigits rest

/-- `^(ch\d+).*?bib.*?(\d+)$` (IGNORECASE). -/
def parseAltChBib (cs : List Char) : Option (List Char × List Char) :=
  match matchPrefixWordDigits "ch" cs with
  | none => none
  | some g1 => (findBibThenDigits (cs.drop g1.length)).map (fun d => (g1, d))

/-- `^<w>-?(\d+)$` (IGNORECASE), e.g. `^bib-?(\d+)$`. -/
def parseAltWordNum (w : String) (cs : List Char) : Option (List Char) :=
  match ciLit w.data cs with
  | some r =>
    let r2 := optChar '-' r
    if ¬ r2.isEmpty ∧ r2.all Char.isDigit then some r2 else none
  | none => none

/-- `re.search(r'(ch\d+)', s)` (IGNORECASE): leftmost occurrence. -/
def searchChAnywhere : List Char → Option (List Char)
  | [] => none
  | c :: rest =>
    match matchPrefixWordDigits "ch" (c :: rest) with
    | some g => some g
    | none => searchChAnywhere rest

/-- `CitationFixer._parse_citation_id`. -/
def parse_citation_id (citation_id : String) (default_chapter : Option String) :
    Option String × Option String :=
  let cs := citation_id.data
  match parseMainCitation cs with
  | some (g1, g2) => (some (lowerStr ⟨g1⟩), some ⟨g2⟩)
  | none =>
    match parseAltChBib cs with
    | some (g1, g2) =>
      -- two groups: group 1 is non-empty here, so its lowercase is taken
      (some (lowerStr ⟨g1⟩), some ⟨g2⟩)
    | none =>
      match parseAltWordNum "bib" cs with
      | some v =>
        if startsWithList "ch".data (lowerStr ⟨v⟩).data
          then (some (lowerStr ⟨v⟩), none) else (default_chapter, some ⟨v⟩)
      | none =>
        match parseAltWordNum "ref" cs with
        | some v =>
          if startsWithList "ch".data (lowerStr ⟨v⟩).data
            then (some (lowerStr ⟨v⟩), none) else (default_chapter, some ⟨v⟩)
        | none =>
          if ¬ cs.isEmpty ∧ cs.all Char.isDigit then
            -- `^(\d+)$`
            (if startsWithList "ch".data (lowerStr citation_id).data
              then (some (lowerStr citation_id), none)
              else (default_chapter, some citation_id))
          else
            -- final fallback: any `(ch\d+)` plus any `(\d+)$`
            let chapter := match searchChAnywhere cs with
              | some g => some (lowerStr ⟨g⟩)
              | none => default_chapter
            let bibNum := (digitSuffix cs).map (fun d => (⟨d⟩ : String))
            (chapter, bibNum)

/-- `id\s*=\s*["\']([^"\']+)["\']` at the current position: the group is the
maximal non-quote run (either quote character may open or close). -/
def parseIdEq (cs : List Char) : Option (List Char × List Char) :=
  match ciLit "id".data cs with
  | none => none
  | some r1 =>
    let r2 := r1.dropWhile pyIsSpace
    match r2 with
    | '=' :: r3 =>
      let r4 := r3.dropWhile pyIsSpace
      match r4 with
      | q :: r5 =>
        if q = '"' ∨ q = '\'' then
          let g := r5.takeWhile (fun c => decide (c ≠ '"') && decide (c ≠ '\''))
          if g.isEmpty then none
          else
            match r5.drop g.length with
            | q2 :: r6 => if q2 = '"' ∨ q2 = '\'' then some (g, r6) else none
            | [] => none
        else none
      | [] => none
    | _ => none

/-- `\s+id\s*=\s*["\']([^"\']+)["\']` at the current position. -/
def tryIdAt (cs : List Char) : Option (List Char × List Char) :=
  match cs with
  | c :: r2 => if pyIsSpace c then parseIdEq (r2.dropWhile pyIsSpace) else none
  | [] => none

/-- `<title[^>]*>\s*References\s*</title>` (IGNORECASE) at this position. -/
def titleRefsAt (cs : List Char) : Bool :=
  (do
    let r ← ciLit "<title".data cs
    let r := r.dropWhile (fun c => c ≠ '>')
    let r ← dropOne (fun c => c = '>') r
    let r := r.dropWhile pyIsSpace
    let r ← ciLit "references".data r
    let r := r.dropWhile pyIsSpace
    ciLit "</title>".data r).isSome

/-- Lazy `[\s\S]*?` followed by the title test: scan for any position. -/
def scanForTitleRefs : List Char → Bool
  | [] => false
  | c :: rest => titleRefsAt (c :: rest) || scanForTitleRefs rest

/-- `<[^>]*>\s*References\s*</` (IGNORECASE) at this position. -/
def anyTagRefsAt (cs : List Char) : Bool :=
  (do
    let r ← dropOne (fun c => c = '<') cs
    let r := r.dropWhile (fun c => c ≠ '>')
    let r ← dropOne (fun c => c = '>') r
    let r := r.dropWhile pyIsSpace
    let r ← ciLit "references".data r
    let r := r.dropWhile pyIsSpace
    ciLit "</".data r).isSome

def scanForAnyTagRefs : List Char → Bool
  | [] => false
  | c :: rest => anyTagRefsAt (c :: rest) || scanForAnyTagRefs rest

/-- After the id group: `[^>]*>` then the given continuation test. -/
def closeTagThen (test : List Char → Bool) (rest : List Char) : Bool :=
  match rest.dropWhile (fun c => c ≠ '>') with
  | '>' :: r2 => test r2
  | _ => false

/-- One candidate split of the greedy `[^>]*\s+id...` at offset `a`. -/
def attemptIdTail (withSpace : Bool) (test : Option (List Char → Bool))
    (cs : List Char) (a : Nat) : Option (List Char) :=
  match (if withSpace then tryIdAt (cs.drop a) else parseIdEq (cs.drop a)) with
  | some (g, rest) =>
    match test with
    | none => some g
    | some t => if closeTagThen t rest then some g else none
  | none => none

/-- Backtracking loop of the greedy `[^>]*`: try the longest split first. -/
def idTailLoop (withSpace : Bool) (test : Option (List Char → Bool))
    (cs : List Char) : Nat → Option (List Char)
  | 0 => attemptIdTail withSpace test cs 0
  | a + 1 =>
    match attemptIdTail withSpace test cs (a + 1) with
    | some g => some g
    | none => idTailLoop withSpace test cs a

/-- Run an id-tail search right after a matched opening literal. -/
def idTailSearch (withSpace : Bool) (test : Option (List Char → Bool))
    (cs : List Char) : Option (List Char) :=
  idTailLoop withSpace test cs (cs.takeWhile (fun c => c ≠ '>')).length

/-- Search (leftmost) for `<lit>` (IGNORECASE, plus an optional single-digit
requirement, for `sect\d`) followed by the id tail and continuation. -/
def searchRefPattern (lit : String) (digit : Bool) (withSpace : Bool)
    (test : Option (List Char → Bool)) : List Char → Option (List Char)
  | [] => none
  | c :: rest =>
    match
      (do
        let r ← ciLit lit.data (c :: rest)
        let r ← if digit then dropOne Char.isDigit r else some r
        idTailSearch withSpace test r) with
    | some g => some g
    | none => searchRefPattern lit digit withSpace test rest

/-- `References` within the `{0,500}` lazy bound (IGNORECASE). -/
def refsWithin : Nat → List Char → Bool
  | _, [] => false
  | 0, cs => (ciLit "references".data cs).isSome
  | b + 1, c :: rest =>
    (ciLit "references".data (c :: rest)).isSome || refsWithin b rest

/-- The fallback pattern
`<(sect\d|section|div)[^>]*id\s*=\s*["\']([^"\']+)["\'][^>]*>[\s\S]{0,500}?References`. -/
def searchRefFallback : List Char → Option (List Char)
  | [] => none
  | c :: rest =>
    match
      (do
        let r ← dropOne (fun x => x = '<') (c :: rest)
        let r ←
          match (do
              let r2 ← ciLit "sect".data r
              dropOne Char.isDigit r2) with
          | some r2 => some r2
          | none =>
            match ciLit "section".data r with
            | some r2 => some r2
            | none => ciLit "div".data r
        idTailSearch false (some (refsWithin 500)) r) with
    | some g => some g
    | none => searchRefFallback rest

/-- `CitationFixer._find_references_section_id`: the four patterns in order,
then the fallback. -/
def find_references_section_id (content : String) : Option String :=
  let cs := content.data
  match searchRefPattern "<sect" true true (some scanForTitleRefs) cs with
  | some g => some ⟨g⟩
  | none =>
    match searchRefPattern "<section" false true (some scanForTitleRefs) cs with
    | some g => some ⟨g⟩
    | none =>
      match searchRefPattern "<bibliography" false true none cs with
      | some g => some ⟨g⟩
      | none =>
        match searchRefPattern "<div" false true (some scanForAnyTagRefs) cs with
        | some g => some ⟨g⟩
        | none => (searchRefFallback cs).map (fun g => (⟨g⟩ : String))

/-- `str(int(b))` for a digit string. -/
def strIntOfDigits (b : String) : String :=
  let t := b.data.dropWhile (fun c => c = '0')
  if t.isEmpty then "0" else ⟨t⟩

/-- The display number: `str(int(bib_num)) if bib_num and bib_num.isdigit()
else bib_num or citation_id`. -/
def displayNum (bib_num : Option String) (citation_id : String) : String :=
  match bib_num with
  | some b =>
    if b ≠ "" ∧ b.data.all Char.isDigit then strIntOfDigits b
    else if b ≠ "" then b else citation_id
  | none => citation_id

structure CitationChange where
  original : String
  replacement : String
  citation_id : String
  ref_target : String
  chapter : Option String
  bib_num : Option String
deriving DecidableEq

/-- The body of `replace_citation` for one matched group. -/
def replaceCitation (default_chapter : Option String)
    (references_section_id : Option String) (group : List Char)
    (original : String) : String × CitationChange :=
  let citation_id := stripStr ⟨group⟩
  let pr := parse_citation_id citation_id default_chapter
  let chapter := pr.1
  let bib_num := pr.2
  let ref_target :=
    match references_section_id with
    | some r => r
    | none =>
      match chapter with
      | some ch => ch ++ "s009000-5"
      | none => citation_id
  let url :=
    match chapter with
    | some ch => ch ++ "#" ++ ref_target
    | none => "#" ++ ref_target
  let display := displayNum bib_num citation_id
  let replacement := "<ulink url=" ++ "\"" ++ url ++ "\"" ++ ">" ++ display ++ "</ulink>"
  (replacement,
   { original := original, replacement := replacement,
     citation_id := citation_id, ref_target := ref_target,
     chapter := chapter, bib_num := bib_num })

/-- `<citation>([^<]+)</citation>` (IGNORECASE) at this position: returns
the group, the matched length and the rest. -/
def matchCitationAt (cs : List Char) : Option (List Char × Nat × List Char) :=
  match ciLit "<citation>".data cs with
  | none => none
  | some r =>
    let g := r.takeWhile (fun c => c ≠ '<')
    if g.isEmpty then none
    else
      match ciLit "</citation>".data (r.drop g.length) with
      | some after => some (g, 10 + g.length + 11, after)
      | none => none

/-- Leftmost citation match: `(before, group, matched original, after)`. -/
def findCitation : List Char → Option (List Char × List Char × List Char × List Char)
  | [] => none
  | c :: rest =>
    match matchCitationAt (c :: rest) with
    | some (g, len, after) => some ([], g, (c :: rest).take len, after)
    | none =>
      (findCitation rest).map (fun p => (c :: p.1, p.2.1, p.2.2.1, p.2.2.2))

/-- `citation_pattern.sub(replace_citation, content)` with fuel (each match
consumes at least 21 characters, so `|content| + 1` can never run out). -/
def subCitationsF (default_chapter : Option String)
    (references_section_id : Option String) :
    Nat → List Char → List Char × List CitationChange
  | 0, cs => (cs, [])
  | fuel + 1, cs =>
    match findCitation cs with
    | none => (cs, [])
    | some (pre, g, orig, after) =>
      let rc := replaceCitation default_chapter references_section_id g ⟨orig⟩
      let tail := subCitationsF default_chapter references_section_id fuel after
      (pre ++ rc.1.data ++ tail.1, rc.2 :: tail.2)

/-- `CitationFixer.fix_citations_in_content`. -/
def fix_citations_in_content (content : String) (filename : String) :
    String × List CitationChange :=
  let default_chapter := extract_chapter_from_filename filename
  let references_section_id := find_references_section_id content
  let r := subCitationsF default_chapter references_section_id
    (content.data.length + 1) content.data
  (⟨r.1⟩, r.2)

/-! ## ReferenceFixer (`reference_fixer.py`) -/

def natOfDigits (cs : List Char) : Nat :=
  cs.foldl (fun a c => a * 10 + (c.toNat - '0'.toNat)) 0

/-- `{n:04d}`. -/
def pad4 (n : Nat) : String :=
  let s := toString n
  if s.length < 4 then ⟨List.replicate (4 - s.length) '0' ++ s.data⟩ else s

/-- `ReferenceFixer._normalize_bib_id`: chapter from the id's own `ch\d+`
prefix (else the given chapter), sequence from the id's trailing digits
(else the counter), formatted `{ch}-bib{seq:04d}` / `bib{seq:04d}`. -/
def normalize_bib_id (current_id : String) (chapter : Option String)
    (entry_num : Nat) : String :=
  let id_chapter :=
    match matchPrefixWordDigits "ch" current_id.data with
    | some g => some (lowerStr ⟨g⟩)
    | none => chapter
  let num : Nat :=
    match digitSuffix current_id.data with
    | some d => natOfDigits d
    | none => entry_num
  match id_chapter with
  | some c => c ++ "-bib" ++ pad4 num
  | none => "bib" ++ pad4 num

/-- Spec-side canonical id, written from the claim's words: the chapter code
comes from the entry id's own leading `ch` number when present, else from
the container; the sequence is the existing id's trailing number if present,
else the running counter; format `{chapterCode}-bib{sequence:04d}` (or
`bib{sequence:04d}` with no chapter code). -/
def specCanonicalId (existing : Option String) (chapterCode : Option String)
    (counter : Nat) : String :=
  let ch :=
    match existing with
    | some e =>
      match matchPrefixWordDigits "ch" e.data with
      | some g => some (lowerStr ⟨g⟩)
      | none => chapterCode
    | none => chapterCode
  let seq :=
    match existing with
    | some e =>
      match digitSuffix e.data with
      | some d => natOfDigits d
      | none => counter
    | none => counter
  match ch with
  | some c => c ++ "-bib" ++ pad4 seq
  | none => "bib" ++ pad4 seq

/-- Leftmost `id_pattern` match in a string: `(before, group, after)`. -/
def searchIdPattern : List Char → Option (List Char × List Char × List Char)
  | [] => none
  | c :: rest =>
    match parseIdEq (c :: rest) with
    | some (g, after) => some ([], g, after)
    | none =>
      (searchIdPattern rest).map (fun p => (c :: p.1, p.2.1, p.2.2))

/-- `id_pattern.sub('id="new"', attrs)` (replace every match), with fuel. -/
def subIdAll (newText : List Char) : Nat → List Char → List Char
  | 0, cs => cs
  | fuel + 1, cs =>
    match searchIdPattern cs with
    | none => cs
    | some (pre, _, after) => pre ++ newText ++ subIdAll newText fuel after

/-- `<(bibliomixed|biblioentry)([^>]*)>(.*?)</\1>` (DOTALL, IGNORECASE) at
this position: `(tag original case, attrs, content, matched length, rest)`.
The backreference `\1` is matched case-insensitively against the fixed tag
word. -/
def matchBibEntryAt (cs : List Char) :
    Option (List Char × List Char × List Char × Nat × List Char) :=
  match dropOne (fun c => c = '<') cs with
  | none => none
  | some r0 =>
    let tagM :=
      match ciLitKeep "bibliomixed".data r0 with
      | some p => some p
      | none => ciLitKeep "biblioentry".data r0
    match tagM with
    | none => none
    | some (tag, r1) =>
      let attrs := r1.takeWhile (fun c => c ≠ '>')
      match r1.drop attrs.length with
      | '>' :: r2 =>
        match bibContentScan tag r2 0 with
        | some (content, rest) =>
          some (tag, attrs, content,
            1 + tag.length + attrs.length + 1 + content.length + tag.length + 3,
            rest)
        | none => none
      | _ => none
where
  /-- lazy `(.*?)` then `</tag>`: first closing occurrence. -/
  bibContentScan (tag : List Char) : List Char → Nat → Option (List Char × List Char)
    | cs2, _ =>
      match ciLit ('<' :: '/' :: tag.map Char.toLower ++ ['>']) cs2 with
      | some rest => some ([], rest)
      | none =>
        match cs2 with
        | [] => none
        | c :: rest2 =>
          (bibContentScan tag rest2 0).map (fun p => (c :: p.1, p.2))

/-- Leftmost bibliography-entry match. -/
def findBibEntry : List Char →
    Option (List Char × List Char × List Char × List Char × Nat × List Char)
  | [] => none
  | c :: rest =>
    match matchBibEntryAt (c :: rest) with
    | some (tag, attrs, content, len, after) =>
      some ([], tag, attrs, content, len, after)
    | none =>
      (findBibEntry rest).map
        (fun p => (c :: p.1, p.2.1, p.2.2.1, p.2.2.2.1, p.2.2.2.2.1, p.2.2.2.2.2))

structure RefChange where
  type : String
  original_id : Option String
  new_id : String
  entry_num : Nat
deriving DecidableEq

/-- `fix_entry` on one matched entry, returning the replacement text, the
recorded change (if any) and the next counter value (the counter advances on
every entry). -/
def fixEntry (chapter : Option String) (n : Nat) (tag attrs content : List Char)
    (orig : List Char) : List Char × Option RefChange :=
  match searchIdPattern attrs with
  | some (_, curId, _) =>
    let newId := normalize_bib_id ⟨curId⟩ chapter n
    if newId ≠ (⟨curId⟩ : String) then
      let newAttrs := subIdAll ('i' :: 'd' :: '=' :: '"' :: newId.data ++ ['"'])
        (attrs.length + 1) attrs
      ('<' :: (tag ++ newAttrs) ++ '>' :: (content ++ '<' :: '/' :: tag ++ ['>']),
       some { type := "id_fix", original_id := some ⟨curId⟩, new_id := newId,
              entry_num := n })
    else (orig, none)
  | none =>
    let newId :=
      match chapter with
      | some c => c ++ "-bib" ++ pad4 n
      | none => "bib" ++ pad4 n
    let newAttrs := (' ' :: 'i' :: 'd' :: '=' :: '"' :: newId.data ++ ['"']) ++ attrs
    ('<' :: (tag ++ newAttrs) ++ '>' :: (content ++ '<' :: '/' :: tag ++ ['>']),
     some { type := "id_add", original_id := none, new_id := newId,
            entry_num := n })

/-- `bibentry_pattern.sub(fix_entry, bib_content)` with the running counter
threaded through (fuel as for the citation sub). -/
def subBibEntries (chapter : Option String) :
    Nat → Nat → List Char → List Char × List RefChange
  | 0, _, cs => (cs, [])
  | fuel + 1, n, cs =>
    match findBibEntry cs with
    | none => (cs, [])
    | some (pre, tag, attrs, content, len, after) =>
      let fe := fixEntry chapter n tag attrs content (cs.drop pre.length |>.take len)
      let tail := subBibEntries chapter fuel (n + 1) after
      (pre ++ fe.1 ++ tail.1,
       match fe.2 with
       | some chg => chg :: tail.2
       | none => tail.2)

/-- `re.search(r'<bibliography[^>]*id\s*=\s*["\']...` (no required space
before `id`, unlike the citation fixer's pattern). -/
def searchBibliographyId (cs : List Char) : Option (List Char) :=
  searchRefPattern "<bibliography" false false none cs

/-- `ReferenceFixer._fix_bibliography_section`. -/
def fix_bibliography_section (bib_content : String) (chapter : Option String) :
    String × List RefChange :=
  let chapter :=
    match searchBibliographyId bib_content.data with
    | some bid =>
      match matchPrefixWordDigits "ch" bid with
      | some g => some (lowerStr ⟨g⟩)
      | none => chapter
    | none => chapter
  let r := subBibEntries chapter (bib_content.data.length + 1) 1 bib_content.data
  (⟨r.1⟩, r.2)

/-! ## Heap model for the analysis operations (C9)

The analysis operations are translated against an explicit heap of item
records, so that every dict mutation the Python code could perform is
visible: an address (heap index) denotes a dict, `item.copy()` allocates a
fresh record at the end of the heap, reads go through `getRec`, and any
in-place update would have to produce a changed heap.  Recursion over
children carries fuel, because addresses in an arbitrary heap could form
cycles (on which the Python code would not terminate either); the frame
theorem below holds for every fuel value.  Filesystem access
(`os.path.isfile`, `os.listdir`, reading a file to search for a fragment id)
is abstracted by oracle functions. -/

structure ItemRec where
  title : String
  href : String
  level : Nat
  children : List Nat
deriving DecidableEq

instance : Inhabited ItemRec := ⟨⟨"", "", 0, []⟩⟩

def getRec (σ : List ItemRec) (a : Nat) : ItemRec := σ.getD a default

/-- `NestingFixer._flatten_items` on the heap: each item is shallow-copied
(`flat_item = item.copy()`) to a fresh address where `level` is set to the
depth and `children` cleared; the originals are only read. -/
def flattenM : Nat → List ItemRec → List Nat → Nat → List ItemRec × List Nat
  | 0, σ, _, _ => (σ, [])
  | _ + 1, σ, [], _ => (σ, [])
  | f + 1, σ, a :: rest, lvl =>
    let r := getRec σ a
    let addr := σ.length
    let σ1 := σ ++ [{ r with level := lvl, children := [] }]
    let k := if r.children ≠ [] then flattenM f σ1 r.children (lvl + 1)
             else (σ1, [])
    let s := flattenM f k.1 rest lvl
    (s.1, addr :: (k.2 ++ s.2))

/-- `_detect_levels` for one record (title first, stored level as fallback). -/
def detectRecLevel (r : ItemRec) : Nat :=
  match detectTitleLevel (stripStr r.title) with
  | some l => l
  | none => r.level

/-- `NestingFixer._find_orphaned_items` (reads only). -/
def findOrphansM : Nat → List ItemRec → List Nat → Int → List Nat
  | 0, _, _, _ => []
  | _ + 1, _, [], _ => []
  | f + 1, σ, a :: rest, parentLevel =>
    let r := getRec σ a
    let here :=
      if parentLevel = -1 ∧ subsectionPatterns (stripStr r.title).data then [a]
      else []
    let sub := if r.children ≠ [] then findOrphansM f σ r.children (r.level : Int)
               else []
    here ++ sub ++ findOrphansM f σ rest parentLevel

structure NestIssue where
  title : String
  type : String
  description : String
  current_level : Nat
  suggested_level : Nat
deriving DecidableEq

/-- `NestingFixer.analyze_issues` on the heap. -/
def nesting_analyze_issuesM (fuel : Nat) (σ : List ItemRec) (items : List Nat) :
    List ItemRec × List NestIssue :=
  let fl := flattenM fuel σ items 0
  let σ1 := fl.1
  let levelIssues := fl.2.foldl (fun acc a =>
    let r := getRec σ1 a
    let d := detectRecLevel r
    if d ≠ r.level then
      acc ++ [{ title := r.title, type := "incorrect_level",
                description := "Item should be at level " ++ toString d ++
                  " but is at level " ++ toString r.level,
                current_level := r.level, suggested_level := d }]
    else acc) []
  let orphanIssues := (findOrphansM fuel σ1 items (-1)).map (fun a =>
    let r := getRec σ1 a
    { title := r.title, type := "orphaned_item",
      description := "Item appears to be orphaned and should be nested under a parent",
      current_level := r.level, suggested_level := r.level + 1 })
  (σ1, levelIssues ++ orphanIssues)

/-! LinkFixer analysis helpers. -/

/-- One alternative of `%[^0-9A-Fa-f]|%.[^0-9A-Fa-f]|%$|%.$` at a position
(`.` does not match a newline). -/
def encIssueAt : List Char → Bool
  | '%' :: rest =>
    match rest with
    | [] => true
    | c :: rest2 =>
      !(pyIsHexDigit c) ||
      (decide (c ≠ '\n') &&
        (match rest2 with
         | [] => true
         | d :: _ => !(pyIsHexDigit d)))
  | _ => false

def scanEncIssue : List Char → Bool
  | [] => false
  | c :: rest => encIssueAt (c :: rest) || scanEncIssue rest

/-- `LinkFixer._has_encoding_issues`. -/
def has_encoding_issues (href : String) : Bool :=
  (href.data.takeWhile (fun c => c ≠ '#')).contains ' ' ||
  strIn "%25" href ||
  scanEncIssue href.data

/-- `LinkFixer._is_valid_fragment`. -/
def is_valid_fragment (fragment : String) : Bool :=
  match fragment.data with
  | [] => true
  | c :: rest =>
    if c.isAlpha || c = '_' then (c :: rest).all isFragClassChar
    else false

/-- Python truthiness of the optional content root. -/
def baseTruthy : Option String → Bool
  | none => false
  | some b => b ≠ ""

/-- `LinkFixer._fragment_exists` (file reading behind an oracle). -/
def fragment_existsM (base : Option String)
    (fragOracle : String → String → Bool) (file_path fragment : String) : Bool :=
  match base with
  | none => true
  | some b => if b = "" then true else fragOracle (pathJoin b file_path) fragment

def joinSemicolon : List String → String
  | [] => ""
  | [s] => s
  | s :: rest => s ++ "; " ++ joinSemicolon rest

structure LinkIssue where
  title : String
  type : String
  description : String
  href : String
  suggested_href : Option String
deriving DecidableEq

/-- `LinkFixer._check_link`. -/
def check_link (base : Option String) (isfile : String → Bool)
    (listdir : String → Option (List String))
    (fragOracle : String → String → Bool) (href title : String) :
    Option LinkIssue :=
  if href = "" then none
  else
    let parsed := urlparse href
    if parsed.scheme ∈ EXTERNAL_SCHEMES then none
    else
      let issues : List String :=
        (if has_encoding_issues href then ["URL encoding issues"] else []) ++
        (if parsed.fragment ≠ "" ∧ ¬ is_valid_fragment parsed.fragment = true then
          ["Invalid fragment identifier: " ++ parsed.fragment] else []) ++
        (if baseTruthy base ∧ parsed.path ≠ "" ∧
            ¬ isfile (pathJoin (base.getD "") parsed.path) = true then
          ["File not found: " ++ parsed.path] else []) ++
        (if baseTruthy base ∧ parsed.path ≠ "" ∧ parsed.fragment ≠ "" ∧
            ¬ fragment_existsM base fragOracle parsed.path parsed.fragment = true then
          ["Fragment #" ++ parsed.fragment ++ " not found in file"] else [])
      if issues ≠ [] then
        some { title := title, type := "broken_link",
               description := joinSemicolon issues, href := href,
               suggested_href := some (fix_link base isfile listdir href) }
      else none

/-- `LinkFixer._analyze_items_links` on the heap (reads only; the `issues`
accumulator is threaded explicitly). -/
def link_analyze_itemsM (base : Option String) (isfile : String → Bool)
    (listdir : String → Option (List String))
    (fragOracle : String → String → Bool) :
    Nat → List ItemRec → List Nat → List LinkIssue →
      List ItemRec × List LinkIssue
  | 0, σ, _, acc => (σ, acc)
  | _ + 1, σ, [], acc => (σ, acc)
  | f + 1, σ, a :: rest, acc =>
    let r := getRec σ a
    let acc1 :=
      if r.href ≠ "" then
        match check_link base isfile listdir fragOracle r.href r.title with
        | some iss => acc ++ [iss]
        | none => acc
      else
        acc ++ [{ title := r.title, type := "missing_link",
                  description := "Item has no href attribute", href := "",
                  suggested_href := none }]
    let c :=
      if r.children ≠ [] then
        link_analyze_itemsM base isfile listdir fragOracle f σ r.children acc1
      else (σ, acc1)
    link_analyze_itemsM base isfile listdir fragOracle f c.1 rest c.2

/-- `LinkFixer.analyze_issues` on the heap. -/
def link_analyze_issuesM (base : Option String) (isfile : String → Bool)
    (listdir : String → Option (List String))
    (fragOracle : String → String → Bool) (fuel : Nat) (σ : List ItemRec)
    (items : List Nat) : List ItemRec × List LinkIssue :=
  link_analyze_itemsM base isfile listdir fragOracle fuel σ items []

/-! ### Simple projection lemmas -/

@[simp] theorem Item.title_mk (t h : String) (l : Nat) (c : List Item) :
    (Item.mk t h l c).title = t := rfl

@[simp] theorem Item.href_mk (t h : String) (l : Nat) (c : List Item) :
    (Item.mk t h l c).href = h := rfl

@[simp] theorem Item.level_mk (t h : String) (l : Nat) (c : List Item) :
    (Item.mk t h l c).level = l := rfl

@[simp] theorem Item.children_mk (t h : String) (l : Nat) (c : List Item) :
    (Item.mk t h l c).children = c := rfl

@[simp] theorem addChild_level (p c : Item) : (addChild p c).level = p.level := by
  simp [addChild]

theorem addChildren_level (cs : List Item) (f : Item) :
    (cs.foldl addChild f).level = f.level := by
  induction cs generalizing f with
  | nil => rfl
  | cons a as ih => simp [List.foldl_cons, ih]

theorem addChildren_mk (cs : List Item) (t h : String) (l : Nat) (c : List Item) :
    cs.foldl addChild (Item.mk t h l c) = Item.mk t h l (c ++ cs) := by
  induction cs generalizing c with
  | nil => simp
  | cons a as ih => simp [List.foldl_cons, addChild, ih]

/-! ### Machine lemmas: equation unfolding -/

theorem closeTop_stack_length (root : List Item) (f : Item) (rest : List Item) :
    (closeTop (root, f :: rest)).2.length = rest.length := by
  cases rest <;> simp [closeTop]

theorem closeTop_stack_shorter (root : List Item) (f : Item) (rest : List Item) :
    (closeTop (root, f :: rest)).2.length < (f :: rest).length := by
  rw [closeTop_stack_length]
  simp

theorem popGE_nil (l : Nat) (root : List Item) : popGE l (root, []) = (root, []) := rfl

theorem popGE_cons (l : Nat) (root : List Item) (f : Item) (rest : List Item) :
    popGE l (root, f :: rest) =
      if l ≤ f.level then popGE l (closeTop (root, f :: rest))
      else (root, f :: rest) := by
  show popGEF (rest.length + 1) l (root, f :: rest) = _
  rw [popGEF]
  by_cases h : l ≤ f.level
  · simp only [if_pos h, popGE, closeTop_stack_length]
  · simp only [if_neg h]

theorem flushAll_nil (root : List Item) : flushAll (root, []) = root := rfl

theorem flushAll_cons (root : List Item) (f : Item) (rest : List Item) :
    flushAll (root, f :: rest) = flushAll (closeTop (root, f :: rest)) := by
  show flushAllF (rest.length + 1) (root, f :: rest) = _
  rw [flushAllF]
  simp only [flushAll, closeTop_stack_length]

/-! ### The barrier simulation

Processing a run of items whose levels are all strictly above the level of
some open frame `f` never pops past `f`: the machine behaves exactly as if
started from an empty state, with the items that would have been finished
into the root forest attached as children of `f` instead.  `embedSt`
re-embeds such an empty-start state below the barrier frame. -/

def embedSt (root : List Item) (f : Item) (fs : List Item)
    (st : List Item × List Item) : List Item × List Item :=
  (root, st.2 ++ (st.1.foldl addChild f) :: fs)

theorem closeTop_embed (r root : List Item) (f : Item) (fs : List Item)
    (a : Item) (s : List Item) :
    closeTop (root, a :: (s ++ (r.foldl addChild f) :: fs)) =
      embedSt root f fs (closeTop (r, a :: s)) := by
  cases s with
  | nil => simp [closeTop, embedSt, List.foldl_append]
  | cons b s' => simp [closeTop, embedSt]

theorem popGE_embed :
    ∀ (n : Nat) (s : List Item), s.length ≤ n →
      ∀ (r root : List Item) (f : Item) (fs : List Item) (l : Nat),
        f.level < l →
        popGE l (root, s ++ (r.foldl addChild f) :: fs) =
          embedSt root f fs (popGE l (r, s)) := by
  intro n
  induction n with
  | zero =>
    intro s hs r root f fs l hf
    have : s = [] := List.length_eq_zero.mp (Nat.le_zero.mp hs)
    subst this
    rw [popGE_nil]
    simp [popGE_cons, addChildren_level, Nat.not_le.mpr hf, embedSt]
  | succ n ih =>
    intro s hs r root f fs l hf
    cases s with
    | nil =>
      rw [popGE_nil]
      simp [popGE_cons, addChildren_level, Nat.not_le.mpr hf, embedSt]
    | cons a s' =>
      rw [List.cons_append,
        popGE_cons l root a (s' ++ (r.foldl addChild f) :: fs),
        popGE_cons l r a s']
      by_cases hal : l ≤ a.level
      · simp only [if_pos hal]
        rw [closeTop_embed]
        rcases s' with _ | ⟨b, s''⟩
        · simpa [closeTop, embedSt] using ih [] (by simp) (r ++ [a]) root f fs l hf
        · have hlen : (addChild b a :: s'').length ≤ n := by
            simp only [List.length_cons] at hs ⊢
            omega
          simpa [closeTop, embedSt] using
            ih (addChild b a :: s'') hlen r root f fs l hf
      · simp only [if_neg hal]
        simp [embedSt]

theorem stepItem_embed (r root : List Item) (f : Item) (fs : List Item)
    (s : List Item) (p : Item × Nat) (hf : f.level < p.2) :
    stepItem (root, s ++ (r.foldl addChild f) :: fs) p =
      embedSt root f fs (stepItem (r, s) p) := by
  simp only [stepItem]
  rw [popGE_embed s.length s le_rfl r root f fs p.2 hf]
  rcases h : popGE p.2 (r, s) with ⟨r2, s2⟩
  simp [embedSt]

theorem run_barrier :
    ∀ (xs : List (Item × Nat)) (r s root : List Item) (f : Item) (fs : List Item),
      (∀ p ∈ xs, f.level < p.2) →
      xs.foldl stepItem (root, s ++ (r.foldl addChild f) :: fs) =
        embedSt root f fs (xs.foldl stepItem (r, s)) := by
  intro xs
  induction xs with
  | nil => intro r s root f fs _; simp [embedSt]
  | cons p xs ih =>
    intro r s root f fs hall
    rw [List.foldl_cons, List.foldl_cons,
      stepItem_embed r root f fs s p (hall p (by simp))]
    rcases h : stepItem (r, s) p with ⟨r2, s2⟩
    simpa [embedSt] using ih r2 s2 root f fs (fun q hq => hall q (by simp [hq]))

/-! ### Flushing lemmas -/

theorem closeTop_root (root : List Item) (f : Item) (rest : List Item) :
    closeTop (root, f :: rest) =
      (root ++ (closeTop ([], f :: rest)).1, (closeTop ([], f :: rest)).2) := by
  cases rest <;> simp [closeTop]

theorem flushAll_root :
    ∀ (n : Nat) (s : List Item), s.length ≤ n → ∀ root,
      flushAll (root, s) = root ++ flushAll ([], s) := by
  intro n
  induction n with
  | zero =>
    intro s hs root
    have : s = [] := List.length_eq_zero.mp (Nat.le_zero.mp hs)
    subst this
    simp [flushAll_nil]
  | succ n ih =>
    intro s hs root
    cases s with
    | nil => simp [flushAll_nil]
    | cons a s' =>
      rw [flushAll_cons, flushAll_cons, closeTop_root]
      rcases h : closeTop ([], a :: s') with ⟨r2, s2⟩
      have hlen : s2.length ≤ n := by
        have := closeTop_stack_shorter ([]) a s'
        rw [h] at this
        simp only [List.length_cons] at this hs
        omega
      rw [ih s2 hlen (root ++ r2), ih s2 hlen r2]
      simp

theorem flushAll_embed :
    ∀ (n : Nat) (s : List Item), s.length ≤ n →
      ∀ (r root : List Item) (f : Item) (fs : List Item),
        flushAll (root, s ++ (r.foldl addChild f) :: fs) =
          flushAll (root, ((r ++ flushAll ([], s)).foldl addChild f) :: fs) := by
  intro n
  induction n with
  | zero =>
    intro s hs r root f fs
    have : s = [] := List.length_eq_zero.mp (Nat.le_zero.mp hs)
    subst this
    simp [flushAll_nil]
  | succ n ih =>
    intro s hs r root f fs
    cases s with
    | nil => simp [flushAll_nil]
    | cons a s' =>
      rw [List.cons_append, flushAll_cons, closeTop_embed]
      rcases h : closeTop (r, a :: s') with ⟨r2, s2⟩
      have hlen : s2.length ≤ n := by
        have := closeTop_stack_shorter r a s'
        rw [h] at this
        simp only [List.length_cons] at this hs
        omega
      have hflush : r2 ++ flushAll ([], s2) = r ++ flushAll ([], a :: s') := by
        have h1 : flushAll (r, a :: s') = flushAll (r2, s2) := by
          rw [flushAll_cons, h]
        rw [flushAll_root (a :: s').length (a :: s') le_rfl r] at h1
        rw [flushAll_root s2.length s2 le_rfl r2] at h1
        exact h1.symm
      calc flushAll (embedSt root f fs (r2, s2))
          = flushAll (root, s2 ++ (r2.foldl addChild f) :: fs) := by simp [embedSt]
        _ = flushAll (root, ((r2 ++ flushAll ([], s2)).foldl addChild f) :: fs) :=
            ih s2 hlen r2 root f fs
        _ = flushAll (root, ((r ++ flushAll ([], a :: s')).foldl addChild f) :: fs) := by
            rw [hflush]

/-! ### Stack level bounds -/

theorem closeTop_levels (root : List Item) (f : Item) (rest : List Item)
    (l0 : Nat) (h : ∀ g ∈ f :: rest, l0 ≤ g.level) :
    ∀ g ∈ (closeTop (root, f :: rest)).2, l0 ≤ g.level := by
  cases rest with
  | nil => simp [closeTop]
  | cons b bs =>
    intro g hg
    simp only [closeTop, List.mem_cons] at hg
    rcases hg with rfl | hg
    · simpa [addChild] using h b (by simp)
    · exact h g (by simp [hg])

theorem popGE_levels :
    ∀ (n : Nat) (s : List Item), s.length ≤ n → ∀ (root : List Item) (l l0 : Nat),
      (∀ g ∈ s, l0 ≤ g.level) →
      ∀ g ∈ (popGE l (root, s)).2, l0 ≤ g.level := by
  intro n
  induction n with
  | zero =>
    intro s hs root l l0 hall
    have : s = [] := List.length_eq_zero.mp (Nat.le_zero.mp hs)
    subst this
    simp [popGE_nil]
  | succ n ih =>
    intro s hs root l l0 hall
    cases s with
    | nil => simp [popGE_nil]
    | cons a s' =>
      rw [popGE_cons]
      by_cases hal : l ≤ a.level
      · simp only [if_pos hal]
        rcases h : closeTop (root, a :: s') with ⟨r2, s2⟩
        have hlen : s2.length ≤ n := by
          have := closeTop_stack_shorter root a s'
          rw [h] at this
          simp only [List.length_cons] at this hs
          omega
        have hlv : ∀ g ∈ s2, l0 ≤ g.level := by
          have := closeTop_levels root a s' l0 hall
          rw [h] at this
          exact this
        exact ih s2 hlen r2 l l0 hlv
      · simp only [if_neg hal]
        exact hall

theorem run_stack_levels :
    ∀ (xs : List (Item × Nat)) (st : List Item × List Item) (l0 : Nat),
      (∀ g ∈ st.2, l0 ≤ g.level) → (∀ p ∈ xs, l0 ≤ p.2) →
      ∀ g ∈ (xs.foldl stepItem st).2, l0 ≤ g.level := by
  intro xs
  induction xs with
  | nil => intro st l0 hst _; simpa using hst
  | cons p xs ih =>
    intro st l0 hst hxs
    rw [List.foldl_cons]
    refine ih _ l0 ?_ (fun q hq => hxs q (by simp [hq]))
    rcases st with ⟨root, s⟩
    simp only [stepItem]
    intro g hg
    rcases List.mem_cons.mp hg with rfl | hg
    · simpa using hxs p (by simp)
    · exact popGE_levels s.length s le_rfl root p.2 l0 hst g hg

/-- Popping at a level at or below every open frame flushes the whole stack. -/
theorem popGE_flushes :
    ∀ (n : Nat) (s : List Item), s.length ≤ n → ∀ (root : List Item) (l : Nat),
      (∀ g ∈ s, l ≤ g.level) →
      popGE l (root, s) = (flushAll (root, s), []) := by
  intro n
  induction n with
  | zero =>
    intro s hs root l _
    have : s = [] := List.length_eq_zero.mp (Nat.le_zero.mp hs)
    subst this
    simp [popGE_nil, flushAll_nil]
  | succ n ih =>
    intro s hs root l hall
    cases s with
    | nil => simp [popGE_nil, flushAll_nil]
    | cons a s' =>
      rw [popGE_cons, if_pos (hall a (by simp)), flushAll_cons]
      rcases h : closeTop (root, a :: s') with ⟨r2, s2⟩
      have hlen : s2.length ≤ n := by
        have := closeTop_stack_shorter root a s'
        rw [h] at this
        simp only [List.length_cons] at this hs
        omega
      have hlv : ∀ g ∈ s2, l ≤ g.level := by
        have := closeTop_levels root a s' l hall
        rw [h] at this
        exact this
      exact ih s2 hlen r2 l hlv

/-! ### The machine computes the spec reconstruction -/

theorem dropWhile_head_not {α : Type} (q : α → Bool) :
    ∀ (l : List α) (x : α) (xs : List α), l.dropWhile q = x :: xs → ¬ q x := by
  intro l
  induction l with
  | nil => intro x xs h; simp [List.dropWhile] at h
  | cons a l' ih =>
    intro x xs h
    by_cases ha : q a
    · rw [List.dropWhile_cons_of_pos ha] at h
      exact ih x xs h
    · rw [List.dropWhile_cons_of_neg ha] at h
      cases h
      exact ha

theorem nestBySpec_cons (i : Item) (l : Nat) (rest : List (Item × Nat)) :
    nestBySpec ((i, l) :: rest) =
      Item.mk i.title i.href l
          (nestBySpec (rest.takeWhile (fun q => l < q.2)))
        :: nestBySpec (rest.dropWhile (fun q => l < q.2)) := by
  rw [nestBySpec]

theorem flush_run_spec :
    ∀ (n : Nat) (xs : List (Item × Nat)), xs.length ≤ n → ∀ root,
      flushAll (xs.foldl stepItem (root, [])) = root ++ nestBySpec xs := by
  intro n
  induction n with
  | zero =>
    intro xs hxs root
    have : xs = [] := List.length_eq_zero.mp (Nat.le_zero.mp hxs)
    subst this
    simp [flushAll_nil, nestBySpec]
  | succ n ih =>
    intro xs hxs root
    cases xs with
    | nil => simp [flushAll_nil, nestBySpec]
    | cons p rest =>
      rcases p with ⟨i, l⟩
      have hstep : stepItem (root, ([] : List Item)) (i, l) =
          (root, [Item.mk i.title i.href l []]) := by
        simp [stepItem, popGE_nil]
      have hlenrest : rest.length ≤ n := by
        simp only [List.length_cons] at hxs
        omega
      have hlenkids : (rest.takeWhile (fun p => decide (l < p.2))).length ≤ n := by
        have := (List.takeWhile_sublist (l := rest)
          (fun p => decide (l < p.2))).length_le
        omega
      have hlensibs : (rest.dropWhile (fun p => decide (l < p.2))).length ≤ n := by
        have := (List.dropWhile_sublist (l := rest)
          (fun p => decide (l < p.2))).length_le
        omega
      have hkidsgt : ∀ p ∈ rest.takeWhile (fun p => decide (l < p.2)),
          (Item.mk i.title i.href l [] : Item).level < p.2 := by
        intro p hp
        have := List.mem_takeWhile_imp hp
        simpa using this
      rcases hrun : (rest.takeWhile (fun p => decide (l < p.2))).foldl stepItem
          (([] : List Item), ([] : List Item)) with ⟨R, S⟩
      have hbar : (rest.takeWhile (fun p => decide (l < p.2))).foldl stepItem
            (root, [Item.mk i.title i.href l []]) =
          (root, S ++ [R.foldl addChild (Item.mk i.title i.href l [])]) := by
        have := run_barrier (rest.takeWhile (fun p => decide (l < p.2))) [] []
          root (Item.mk i.title i.href l []) [] hkidsgt
        rw [hrun] at this
        simpa [embedSt] using this
      have hnode : R ++ flushAll ([], S) =
          nestBySpec (rest.takeWhile (fun p => decide (l < p.2))) := by
        have h1 := ih _ hlenkids ([])
        rw [hrun, flushAll_root S.length S le_rfl R] at h1
        simpa using h1
      have hflushA :
          flushAll (root, S ++ [R.foldl addChild (Item.mk i.title i.href l [])]) =
            root ++ [Item.mk i.title i.href l
              (nestBySpec (rest.takeWhile (fun p => decide (l < p.2))))] := by
        rw [flushAll_embed S.length S le_rfl R root (Item.mk i.title i.href l []) [],
          hnode, addChildren_mk, flushAll_cons]
        simp [closeTop, flushAll_nil]
      rw [List.foldl_cons, hstep, nestBySpec_cons]
      conv_lhs => rw [← List.takeWhile_append_dropWhile
        (p := fun p => decide (l < p.2)) (l := rest)]
      rw [List.foldl_append, hbar]
      rcases hsplit : rest.dropWhile (fun p => decide (l < p.2)) with _ | ⟨s0, sibs2⟩
      · rw [hsplit]
        simp only [List.foldl_nil]
        rw [hflushA]
        simp [nestBySpec]
      · rw [hsplit]
        have hs0le : s0.2 ≤ l := by
          have := dropWhile_head_not (fun p => decide (l < p.2)) rest s0 sibs2 hsplit
          simpa using this
        have hstacklv : ∀ g ∈ S ++ [R.foldl addChild (Item.mk i.title i.href l [])],
            s0.2 ≤ g.level := by
          intro g hg
          rcases List.mem_append.mp hg with hg | hg
          · have hS : ∀ g ∈ S, l + 1 ≤ g.level := by
              have := run_stack_levels (rest.takeWhile (fun p => decide (l < p.2)))
                (([] : List Item), ([] : List Item)) (l + 1) (by simp)
                (fun p hp => by simpa using hkidsgt p hp)
              rw [hrun] at this
              exact this
            have := hS g hg
            omega
          · simp only [List.mem_singleton] at hg
            subst hg
            rw [addChildren_level]
            simpa using hs0le
        have hpop : popGE s0.2
            (root, S ++ [R.foldl addChild (Item.mk i.title i.href l [])]) =
            (root ++ [Item.mk i.title i.href l
              (nestBySpec (rest.takeWhile (fun p => decide (l < p.2))))], []) := by
          rw [popGE_flushes (S ++ [R.foldl addChild (Item.mk i.title i.href l [])]).length
            _ le_rfl _ _ hstacklv, hflushA]
        have hstep2 : stepItem
            (root, S ++ [R.foldl addChild (Item.mk i.title i.href l [])]) s0 =
            (root ++ [Item.mk i.title i.href l
                (nestBySpec (rest.takeWhile (fun p => decide (l < p.2))))],
              [Item.mk s0.1.title s0.1.href s0.2 []]) := by
          simp [stepItem, hpop]
        have hstep3 : stepItem
            (root ++ [Item.mk i.title i.href l
              (nestBySpec (rest.takeWhile (fun p => decide (l < p.2))))],
              ([] : List Item)) s0 =
            (root ++ [Item.mk i.title i.href l
                (nestBySpec (rest.takeWhile (fun p => decide (l < p.2))))],
              [Item.mk s0.1.title s0.1.href s0.2 []]) := by
          simp [stepItem, popGE_nil]
        rw [List.foldl_cons, hstep2, ← hstep3, ← List.foldl_cons]
        have hlen2 : (s0 :: sibs2).length ≤ n := by
          rw [hsplit] at hlensibs
          exact hlensibs
        rw [ih (s0 :: sibs2) hlen2 (root ++ [Item.mk i.title i.href l
          (nestBySpec (rest.takeWhile (fun p => decide (l < p.2))))])]
        simp

/-- `_rebuild_hierarchy` computes exactly the spec-side reconstruction. -/
theorem rebuild_eq_nestBySpec (ps : List (Item × Nat)) :
    rebuild_hierarchy ps = nestBySpec ps := by
  have := flush_run_spec ps.length ps le_rfl []
  simpa [rebuild_hierarchy] using this

/-! ### Structural properties of the reconstruction -/

theorem nestBySpec_root_levels :
    ∀ (n : Nat) (ps : List (Item × Nat)), ps.length ≤ n →
      ∀ r ∈ nestBySpec ps, ∃ p ∈ ps, r.level = p.2 := by
  intro n
  induction n with
  | zero =>
    intro ps hps
    have : ps = [] := List.length_eq_zero.mp (Nat.le_zero.mp hps)
    subst this
    simp [nestBySpec]
  | succ n ih =>
    intro ps hps r hr
    cases ps with
    | nil => simp [nestBySpec] at hr
    | cons p rest =>
      rcases p with ⟨i, l⟩
      rw [nestBySpec_cons] at hr
      rcases List.mem_cons.mp hr with rfl | hr
    
      · exact ⟨(i, l), by simp⟩
      · have hlen : (rest.dropWhile (fun q => decide (l < q.2))).length ≤ n := by
          have := (List.dropWhile_sublist (l := rest)
            (fun q => decide (l < q.2))).length_le
          simp only [List.length_cons] at hps
          omega
        rcases ih _ hlen r hr with ⟨q, hq, hlevel⟩
        exact ⟨q, List.mem_cons_of_mem _ ((List.dropWhile_sublist _).subset hq), hlevel⟩

theorem strictForest_append (xs ys : List Item) :
    strictForest (xs ++ ys) = (strictForest xs && strictForest ys) := by
  induction xs with
  | nil => simp [strictForest]
  | cons a xs ih => simp [strictForest, ih, Bool.and_assoc]

theorem strictForest_nestBySpec :
    ∀ (n : Nat) (ps : List (Item × Nat)), ps.length ≤ n →
      strictForest (nestBySpec ps) = true := by
  intro n
  induction n with
  | zero =>
    intro ps hps
    have : ps = [] := List.length_eq_zero.mp (Nat.le_zero.mp hps)
    subst this
    simp [nestBySpec, strictForest]
  | succ n ih =>
    intro ps hps
    cases ps with
    | nil => simp [nestBySpec, strictForest]
    | cons p rest =>
      rcases p with ⟨i, l⟩
      simp only [List.length_cons] at hps
      have hlenk : (rest.takeWhile (fun q => decide (l < q.2))).length ≤ n := by
        have := (List.takeWhile_sublist (l := rest)
          (fun q => decide (l < q.2))).length_le
        omega
      have hlens : (rest.dropWhile (fun q => decide (l < q.2))).length ≤ n := by
        have := (List.dropWhile_sublist (l := rest)
          (fun q => decide (l < q.2))).length_le
        omega
      rw [nestBySpec_cons]
      simp only [strictForest, strictItem, Bool.and_eq_true, List.all_eq_true]
      refine ⟨⟨?_, ?_⟩, ih _ hlens⟩
      · intro c hc
        rcases nestBySpec_root_levels
          (rest.takeWhile (fun q => decide (l < q.2))).length _ le_rfl c hc
          with ⟨q, hq, hlevel⟩
        have := List.mem_takeWhile_imp hq
        simp only [decide_eq_true_eq] at this
        simpa [hlevel] using this
      · exact ih _ hlenk

/-- The items of the fixed structure always satisfy the strict-increase
property. -/
theorem strictForest_fix_nesting (t : Toc) :
    strictForest (fix_nesting t).items = true := by
  simp only [fix_nesting, rebuild_eq_nestBySpec]
  exact strictForest_nestBySpec _ _ le_rfl

/-- C1 (counterexample): the claimed invariant `child.level = parent.level + 1`
fails on the reconstructed tree for the flat input
`["Chapter 1", "1.1.1 Deep"]` (both at level 0): the subsection pattern
detects level 2 for the second item, which becomes a direct child of the
level-0 chapter and keeps level 2. -/
theorem C1_counterexample :
    plusOneForest (fix_nesting
      ⟨"toc", [Item.mk "Chapter 1" "c1" 0 [], Item.mk "1.1.1 Deep" "d" 0 []]⟩).items
      = false := by
  decide

/-- C1 (amended): after `NestingFixer.fix_nesting`, every item appearing as a
child has a `level` strictly greater than its parent's `level` (equal to its
own detected level, which may exceed the parent's level by more than 1 when
detected levels skip); roots keep their detected levels. -/
theorem C1_child_levels_increase (t : Toc) :
    strictForest (fix_nesting t).items = true :=
  strictForest_fix_nesting t

/-- C3: in the tree returned by `fix_nesting`, every item's parent is the
nearest preceding item (in document order) whose detected level is strictly
smaller, and siblings retain document order — `_rebuild_hierarchy` computes
exactly the spec-side `nestBySpec`, whose children are by construction the
maximal following run of strictly deeper items; and the flat list
`["Chapter 1", "1.1 Section One", "1.2 Section Two", "Chapter 2"]` (all at
level 0) reconstructs to 2 top-level items, the first with exactly these 2
children in order and the second with none. -/
theorem C3_nearest_smaller_parent :
    (∀ ps : List (Item × Nat), rebuild_hierarchy ps = nestBySpec ps) ∧
    fix_nesting ⟨"toc",
        [Item.mk "Chapter 1" "c1.xhtml" 0 [],
         Item.mk "1.1 Section One" "s11.xhtml" 0 [],
         Item.mk "1.2 Section Two" "s12.xhtml" 0 [],
         Item.mk "Chapter 2" "c2.xhtml" 0 []]⟩ =
      ⟨"toc",
        [Item.mk "Chapter 1" "c1.xhtml" 0
           [Item.mk "1.1 Section One" "s11.xhtml" 1 [],
            Item.mk "1.2 Section Two" "s12.xhtml" 1 []],
         Item.mk "Chapter 2" "c2.xhtml" 0 []]⟩ :=
  ⟨rebuild_eq_nestBySpec, by decide⟩

/-! ### Idempotence analysis (C2) -/

theorem projTH_mk (t h : String) (l : Nat) (cs : List Item) :
    projTH (Item.mk t h l cs) = (t, h) := rfl

/-- Flattening the reconstructed forest lists the very same `(title, href)`
sequence (in document order) as the input pair list, whatever the depths. -/
theorem flatten_nest_projTH :
    ∀ (n : Nat) (ps : List (Item × Nat)), ps.length ≤ n → ∀ lvl,
      (flatten_items (nestBySpec ps) lvl).map projTH =
        ps.map (fun p => projTH p.1) := by
  intro n
  induction n with
  | zero =>
    intro ps hps lvl
    have : ps = [] := List.length_eq_zero.mp (Nat.le_zero.mp hps)
    subst this
    simp [nestBySpec, flatten_items]
  | succ n ih =>
    intro ps hps lvl
    cases ps with
    | nil => simp [nestBySpec, flatten_items]
    | cons p rest =>
      rcases p with ⟨i, l⟩
      simp only [List.length_cons] at hps
      have hlenk : (rest.takeWhile (fun q => decide (l < q.2))).length ≤ n := by
        have := (List.takeWhile_sublist (l := rest)
          (fun q => decide (l < q.2))).length_le
        omega
      have hlens : (rest.dropWhile (fun q => decide (l < q.2))).length ≤ n := by
        have := (List.dropWhile_sublist (l := rest)
          (fun q => decide (l < q.2))).length_le
        omega
      rw [nestBySpec_cons]
      simp only [flatten_items, flatten_one, List.map_append, List.map_cons,
        projTH_mk, List.cons_append]
      rw [ih _ hlenk, ih _ hlens, ← List.map_append,
        List.takeWhile_append_dropWhile]
      simp [projTH]

/-- `takeWhile`/`dropWhile` at a level cut are determined by the
title/href/level projection. -/
theorem projTHL_take_drop_congr :
    ∀ (ps qs : List (Item × Nat)) (l : Nat), ps.map projTHL = qs.map projTHL →
      (ps.takeWhile (fun r => decide (l < r.2))).map projTHL =
          (qs.takeWhile (fun r => decide (l < r.2))).map projTHL ∧
        (ps.dropWhile (fun r => decide (l < r.2))).map projTHL =
          (qs.dropWhile (fun r => decide (l < r.2))).map projTHL := by
  intro ps
  induction ps with
  | nil =>
    intro qs l h
    have : qs = [] := by
      have := congrArg List.length h
      simpa using (List.map_eq_nil.mp h.symm)
    subst this
    simp
  | cons p ps ih =>
    intro qs l h
    cases qs with
    | nil => simp at h
    | cons q qs =>
      simp only [List.map_cons, List.cons.injEq] at h
      rcases h with ⟨hpq, htl⟩
      have hlev : p.2 = q.2 := by
        have := congrArg (fun x => x.2.2) hpq
        simpa [projTHL] using this
      rcases ih qs l htl with ⟨iht, ihd⟩
      by_cases hl : l < p.2
      · rw [List.takeWhile_cons_of_pos (by simpa using hl),
          List.takeWhile_cons_of_pos (by simp; omega),
          List.dropWhile_cons_of_pos (by simpa using hl),
          List.dropWhile_cons_of_pos (by simp; omega)]
        exact ⟨by simpa [hpq] using iht, ihd⟩
      · rw [List.takeWhile_cons_of_neg (by simpa using hl),
          List.takeWhile_cons_of_neg (by simp; omega),
          List.dropWhile_cons_of_neg (by simpa using hl),
          List.dropWhile_cons_of_neg (by simp; omega)]
        exact ⟨rfl, by simpa [hpq] using htl⟩

/-- The reconstruction only reads the title, href and detected level of each
pair. -/
theorem nestBySpec_congr :
    ∀ (n : Nat) (ps qs : List (Item × Nat)), ps.length ≤ n →
      ps.map projTHL = qs.map projTHL → nestBySpec ps = nestBySpec qs := by
  intro n
  induction n with
  | zero =>
    intro ps qs hps h
    have hp : ps = [] := List.length_eq_zero.mp (Nat.le_zero.mp hps)
    subst hp
    have : qs = [] := List.map_eq_nil.mp h.symm
    subst this
    rfl
  | succ n ih =>
    intro ps qs hps h
    cases ps with
    | nil =>
      have : qs = [] := List.map_eq_nil.mp h.symm
      subst this
      rfl
    | cons p ps' =>
      cases qs with
      | nil => simp at h
      | cons q qs' =>
        simp only [List.map_cons, List.cons.injEq] at h
        rcases h with ⟨hpq, htl⟩
        have htitle : p.1.title = q.1.title := congrArg (fun x => x.1) hpq
        have hhref : p.1.href = q.1.href := congrArg (fun x => x.2.1) hpq
        have hlev : p.2 = q.2 := congrArg (fun x => x.2.2) hpq
        simp only [List.length_cons] at hps
        have hlenk : (ps'.takeWhile (fun r => decide (p.2 < r.2))).length ≤ n := by
          have := (List.takeWhile_sublist (l := ps')
            (fun r => decide (p.2 < r.2))).length_le
          omega
        have hlens : (ps'.dropWhile (fun r => decide (p.2 < r.2))).length ≤ n := by
          have := (List.dropWhile_sublist (l := ps')
            (fun r => decide (p.2 < r.2))).length_le
          omega
        rcases projTHL_take_drop_congr ps' qs' p.2 htl with ⟨ht, hd⟩
        rcases p with ⟨i, l⟩
        rcases q with ⟨j, m⟩
        simp only at htitle hhref hlev
        subst hlev
        rw [nestBySpec_cons, nestBySpec_cons, htitle, hhref,
          ih _ _ hlenk ht, ih _ _ hlens hd]

/-- Under the title-driven hypothesis, the detected levels are a function of
the `(title, href)` projection alone. -/
theorem detect_levels_map (xs : List Item)
    (h : ∀ i ∈ xs, (detectTitleLevel (stripStr i.title)).isSome = true) :
    (detect_levels xs).map projTHL =
      (xs.map projTH).map
        (fun th => (th.1, th.2, (detectTitleLevel (stripStr th.1)).getD 0)) := by
  induction xs with
  | nil => simp [detect_levels]
  | cons i xs ih =>
    have hi := h i (by simp)
    have htail := ih (fun j hj => h j (by simp [hj]))
    simp only [detect_levels] at htail ⊢
    simp only [List.map_cons, List.cons.injEq]
    refine ⟨?_, htail⟩
    rcases h0 : detectTitleLevel (stripStr i.title) with _ | l
    · rw [h0] at hi
      simp at hi
    · simp [projTHL, projTH, detect_level, h0]

/-- C2 (counterexample): `fix_nesting` is not idempotent.  For the structure
with a single root "1.1 Sec" (section pattern, detected level 1) holding one
child "Random" (no pattern), the first pass leaves "Random" at its flattened
level 1 but as a root; flattening the output resets its stored level to depth
0, so the second pass assigns it level 0 and the trees differ. -/
theorem C2_counterexample :
    fix_nesting (fix_nesting
        ⟨"toc", [Item.mk "1.1 Sec" "s" 0 [Item.mk "Random" "r" 0 []]]⟩) ≠
      fix_nesting
        ⟨"toc", [Item.mk "1.1 Sec" "s" 0 [Item.mk "Random" "r" 0 []]]⟩ := by
  decide

/-- C2 (amended): `fix_nesting` is idempotent on every structure whose items'
titles each determine the detected level (a top-level word, a chapter /
section / subsection pattern, or the numbering pattern): for such structures
the detected levels never fall back to the stored `level`, so re-running the
reconstruction on its own output yields an unchanged tree. -/
theorem C2_fix_nesting_idem (t : Toc) (h : TitleDriven t) :
    fix_nesting (fix_nesting t) = fix_nesting t := by
  have hfix : fix_nesting t =
      ⟨t.title, nestBySpec (detect_levels (flatten_items t.items 0))⟩ := by
    simp [fix_nesting, rebuild_eq_nestBySpec]
  have hTH : (flatten_items
        (nestBySpec (detect_levels (flatten_items t.items 0))) 0).map projTH
      = (flatten_items t.items 0).map projTH := by
    rw [flatten_nest_projTH (detect_levels (flatten_items t.items 0)).length _
      le_rfl 0]
    simp [detect_levels, Function.comp]
  have h2 : ∀ i ∈ flatten_items
      (nestBySpec (detect_levels (flatten_items t.items 0))) 0,
      (detectTitleLevel (stripStr i.title)).isSome = true := by
    intro i hi
    have hmem : (i.title, i.href) ∈ (flatten_items t.items 0).map projTH := by
      rw [← hTH]
      exact List.mem_map_of_mem projTH hi
    rcases List.mem_map.mp hmem with ⟨j, hj, hproj⟩
    have hjt : j.title = i.title := congrArg Prod.fst hproj
    rw [← hjt]
    exact h j hj
  have hTHL : (detect_levels (flatten_items
        (nestBySpec (detect_levels (flatten_items t.items 0))) 0)).map projTHL
      = (detect_levels (flatten_items t.items 0)).map projTHL := by
    rw [detect_levels_map _ h2, detect_levels_map _ h, hTH]
  rw [hfix]
  simp only [fix_nesting, rebuild_eq_nestBySpec, Toc.mk.injEq]
  exact ⟨trivial, nestBySpec_congr _ _ _ le_rfl hTHL⟩

/-- C2 (witness for the amended theorem): a concrete title-driven structure
on which idempotence holds. -/
theorem C2_fix_nesting_idem_witness :
    TitleDriven ⟨"toc", [Item.mk "Chapter 1" "c1" 0
        [Item.mk "1.1 Intro" "s" 0 []], Item.mk "Appendix 1" "a" 0 []]⟩ ∧
      fix_nesting (fix_nesting ⟨"toc", [Item.mk "Chapter 1" "c1" 0
          [Item.mk "1.1 Intro" "s" 0 []], Item.mk "Appendix 1" "a" 0 []]⟩) =
        fix_nesting ⟨"toc", [Item.mk "Chapter 1" "c1" 0
          [Item.mk "1.1 Intro" "s" 0 []], Item.mk "Appendix 1" "a" 0 []]⟩ :=
  ⟨by decide, C2_fix_nesting_idem _ (by decide)⟩

/-- C6: a title matching the fixed top-level vocabulary (exact word or word
prefix, after lowercasing and stripping) is always detected at level 0,
whatever other patterns the title also matches and whatever the stored level
is. -/
theorem C6_top_level_priority (i : Item)
    (h : is_top_level (stripStr i.title) = true) : detect_level i = 0 := by
  simp [detect_level, detectTitleLevel, h]

/-- C6 (witness): "Appendix 1" is detected at level 0 even though it also
ends in a number. -/
theorem C6_top_level_priority_witness :
    is_top_level (stripStr (Item.mk "Appendix 1" "a" 3 []).title) = true ∧
      detect_level (Item.mk "Appendix 1" "a" 3 []) = 0 :=
  ⟨by decide, C6_top_level_priority _ (by decide)⟩

/-- C8: format detection is total, returns one of exactly three values, and
tests the dialect-A (NCX / navigation-map) signature before the dialect-B
(nav landmark with a table-of-contents role) signature; anything matching
neither yields `generic`. -/
theorem C8_detect_format (s : String) :
    (detect_format s = "ncx" ∨ detect_format s = "nav" ∨
      detect_format s = "generic") ∧
    detect_format s =
      (if ncxSignature s then "ncx"
       else if navSignature s then "nav" else "generic") := by
  constructor
  · simp only [detect_format]
    split
    · exact Or.inl rfl
    · split
      · exact Or.inr (Or.inl rfl)
      · exact Or.inr (Or.inr rfl)
  · simp only [detect_format, ncxSignature, navSignature]

theorem dedup_sub_eq (t h : String) (l : Nat) (cs : List Item)
    (seen : List String) :
    dedup_sub (Item.mk t h l cs) seen =
      (Item.mk t h l (dedup_list cs seen).1, (dedup_list cs seen).2) := by
  simp only [dedup_sub]

/-- Core invariant of the shared-seen traversal: the hrefs of the output are
duplicate-free and disjoint from the incoming `seen` set, and the outgoing
`seen` set covers both the incoming one and the output's hrefs. -/
theorem dedup_list_inv :
    ∀ (N : Nat) (xs : List Item), sizeOf xs ≤ N → ∀ (seen : List String),
      ((hrefsOfForest (dedup_list xs seen).1).Nodup
        ∧ ∀ h ∈ hrefsOfForest (dedup_list xs seen).1, h ∉ seen)
      ∧ ((∀ h ∈ seen, h ∈ (dedup_list xs seen).2)
        ∧ ∀ h ∈ hrefsOfForest (dedup_list xs seen).1,
            h ∈ (dedup_list xs seen).2) := by
  intro N
  induction N with
  | zero =>
    intro xs hxs
    exfalso
    cases xs <;> simp at hxs
  | succ N ih =>
    intro xs hxs seen
    cases xs with
    | nil => simp [dedup_list, hrefsOfForest]
    | cons i rest =>
      rcases i with ⟨t, h, l, cs⟩
      have hszc : sizeOf cs ≤ N := by
        simp only [List.cons.sizeOf_spec, Item.mk.sizeOf_spec] at hxs
        omega
      have hszr : sizeOf rest ≤ N := by
        simp only [List.cons.sizeOf_spec, Item.mk.sizeOf_spec] at hxs
        omega
      simp only [dedup_list, Item.href_mk]
      by_cases hcond : h ≠ "" ∧ h ∈ seen
      · rw [if_pos hcond]
        exact ih rest hszr seen
      · rw [if_neg hcond]
        rw [dedup_sub_eq]
        rcases h1 : dedup_list cs (if h ≠ "" then h :: seen else seen)
          with ⟨kids, seen2⟩
        rcases h2 : dedup_list rest seen2 with ⟨others, seen3⟩
        have ihk := ih cs hszc (if h ≠ "" then h :: seen else seen)
        rw [h1] at ihk
        have iho := ih rest hszr seen2
        rw [h2] at iho
        simp only at ihk iho ⊢
        rcases ihk with ⟨⟨hkN, hkS⟩, hkSub, hkIn⟩
        rcases iho with ⟨⟨hoN, hoS⟩, hoSub, hoIn⟩
        have hseen1 : ∀ x ∈ seen, x ∈ (if h ≠ "" then h :: seen else seen) := by
          intro x hx
          split <;> simp [hx]
        have hmemh : h ≠ "" → h ∈ (if h ≠ "" then h :: seen else seen) := by
          intro hne
          rw [if_pos hne]
          simp
        simp only [hrefsOfForest, hrefsOfItem, List.append_assoc,
          List.nodup_append, List.mem_append]
        refine ⟨⟨?_, ?_⟩, ?_, ?_⟩
        · -- Nodup of own ++ kids ++ others
          refine ⟨?_, ⟨hkN, hoN, ?_⟩, ?_⟩
          · split <;> simp
          · -- kids disjoint from others
            intro x hxk hxo
            exact hoS x hxo (hkIn x hxk)
          · -- own disjoint from kids ++ others
            intro x hx
            have hne : h ≠ "" := by
              by_contra hc
              rw [if_neg (fun hn => hn hc)] at hx
              simp at hx
            rw [if_pos hne] at hx
            simp only [List.mem_singleton] at hx
            subst hx
            intro hmem
            rcases List.mem_append.mp hmem with hmk | hmo
            · exact hkS x hmk (hmemh hne)
            · exact hoS x hmo (hkSub x (hmemh hne))
        · -- output hrefs avoid the incoming seen
          intro x hx
          rcases hx with hx | hx | hx
          · have hne : h ≠ "" := by
              by_contra hc
              rw [if_neg (fun hn => hn hc)] at hx
              simp at hx
            rw [if_pos hne] at hx
            simp only [List.mem_singleton] at hx
            subst hx
            intro hmem
            exact hcond ⟨hne, hmem⟩
          · intro hmem
            exact hkS x hx (hseen1 x hmem)
          · intro hmem
            exact hoS x hx (hkSub x (hseen1 x hmem))
        · -- incoming seen survives into the final seen
          intro x hx
          exact hoSub x (hkSub x (hseen1 x hx))
        · -- output hrefs are recorded in the final seen
          intro x hx
          rcases hx with hx | hx | hx
          · have hne : h ≠ "" := by
              by_contra hc
              rw [if_neg (fun hn => hn hc)] at hx
              simp at hx
            rw [if_pos hne] at hx
            simp only [List.mem_singleton] at hx
            subst hx
            exact hoSub x (hkSub x (hmemh hne))
          · exact hoSub x (hkIn x hx)
          · exact hoIn x hx

/-- Flat lists: the kept hrefs are exactly the first occurrences. -/
theorem dedup_flat :
    ∀ (items : List Item) (seen : List String),
      (∀ i ∈ items, i.children = []) →
      hrefsOfForest (dedup_list items seen).1 =
        firstOccurrences (hrefsOfForest items) seen := by
  intro items
  induction items with
  | nil => intro seen _; simp [dedup_list, hrefsOfForest, firstOccurrences]
  | cons i rest ih =>
    intro seen hflat
    rcases i with ⟨t, h, l, cs⟩
    have hcs : cs = [] := by simpa using hflat (Item.mk t h l cs) (by simp)
    subst hcs
    have hrest : ∀ j ∈ rest, j.children = [] :=
      fun j hj => hflat j (by simp [hj])
    by_cases hne : h = ""
    · subst hne
      have hif : ¬(("" : String) ≠ "" ∧ ("" : String) ∈ seen) := by simp
      simp only [dedup_list, Item.href_mk, if_neg hif, dedup_sub_eq]
      simp only [hrefsOfForest, hrefsOfItem]
      simpa using ih seen hrest
    · by_cases hmem : h ∈ seen
      · have hif : (h ≠ "" ∧ h ∈ seen) := ⟨hne, hmem⟩
        simp only [dedup_list, Item.href_mk, if_pos hif]
        have hih := ih seen hrest
        simp only [hrefsOfForest, hrefsOfItem, if_pos hne,
          List.append_nil, List.cons_append, List.nil_append]
        rw [hih, firstOccurrences]
        simp [hmem]
      · have hif : ¬(h ≠ "" ∧ h ∈ seen) := by
          intro hc
          exact hmem hc.2
        simp only [dedup_list, Item.href_mk, if_neg hif, dedup_sub_eq,
          if_pos hne]
        simp only [hrefsOfForest, hrefsOfItem, if_pos hne,
          List.append_nil, List.cons_append, List.nil_append]
        rw [firstOccurrences, if_neg hmem]
        exact congrArg (List.cons h) (ih (h :: seen) hrest)

/-- C10 (counterexample): "among items sharing an href, the first in document
order is the one kept" fails: when a duplicate item is dropped, its whole
subtree is dropped with it, so a first occurrence nested inside it is lost
and a later occurrence survives.  Here the first item with href "b" in
document order is "Z" (inside the dropped duplicate "Y"), but the kept item
with href "b" is "W". -/
theorem C10_counterexample :
    deduplicate_links ⟨"toc",
        [Item.mk "X" "a" 0 [], Item.mk "Y" "a" 0 [Item.mk "Z" "b" 1 []],
         Item.mk "W" "b" 0 []]⟩ =
      ⟨"toc", [Item.mk "X" "a" 0 [], Item.mk "W" "b" 0 []]⟩ ∧
    firstTitleWithForest
        [Item.mk "X" "a" 0 [], Item.mk "Y" "a" 0 [Item.mk "Z" "b" 1 []],
         Item.mk "W" "b" 0 []] "b" = some "Z" ∧
    firstTitleWithForest
        (deduplicate_links ⟨"toc",
          [Item.mk "X" "a" 0 [], Item.mk "Y" "a" 0 [Item.mk "Z" "b" 1 []],
           Item.mk "W" "b" 0 []]⟩).items "b" = some "W" := by
  refine ⟨by decide, by decide, by decide⟩

/-- C10 (amended): the tree returned by `deduplicate_links` never contains
two items with the same non-empty href, anywhere, because the seen-set is
shared across the whole traversal; and when no item has children (flat
lists), the kept items carry exactly the first occurrence of each href in
document order.  (In general a dropped duplicate's subtree is dropped with
it, so a nested first occurrence can lose to a later one.) -/
theorem C10_dedup_no_duplicates :
    (∀ t : Toc, (hrefsOfForest (deduplicate_links t).items).Nodup) ∧
    (∀ items : List Item, (∀ i ∈ items, i.children = []) →
      hrefsOfForest (deduplicate_links ⟨"", items⟩).items =
        firstOccurrences (hrefsOfForest items) []) := by
  constructor
  · intro t
    exact (dedup_list_inv (sizeOf t.items) t.items le_rfl []).1.1
  · intro items hflat
    exact dedup_flat items [] hflat

/-! ### C7: URL re-encoding -/

/-- The replace-then-loop of `_fix_url_encoding` equals the single-pass
amended character rule. -/
theorem encode_chain (cs : List Char) :
    ((cs.foldr (fun c acc => if c = ' ' then '%' :: '2' :: '0' :: acc else c :: acc)
        []).foldr
      (fun c acc =>
        if c.isAlphanum || c = '-' || c = '_' || c = '.' || c = '/' || c = '%' || c = '#'
          then c :: acc
        else if c = ' ' then '%' :: '2' :: '0' :: acc
        else quoteChar c ++ acc) [])
    = cs.foldr (fun c acc => amendedEncodeChar c ++ acc) [] := by
  induction cs with
  | nil => rfl
  | cons c cs ih =>
    simp only [List.foldr_cons]
    by_cases hsp : c = ' '
    · subst hsp
      rw [if_pos rfl]
      simp only [List.foldr_cons]
      rw [if_pos (by decide), if_pos (by decide), if_pos (by decide), ih]
      rfl
    · rw [if_neg hsp]
      simp only [List.foldr_cons]
      by_cases hall :
          (c.isAlphanum || c = '-' || c = '_' || c = '.' || c = '/' || c = '%' || c = '#')
            = true
      · rw [if_pos hall, ih]
        have hA : amendedEncodeChar c = [c] := by
          unfold amendedEncodeChar
          rw [if_neg hsp, if_pos (by simp only [Bool.or_eq_true] at hall ⊢; tauto)]
        rw [hA]
        rfl
      · rw [if_neg hall, if_neg hsp, ih]
        have hA : amendedEncodeChar c = quoteChar c := by
          by_cases ht : c = '~'
          · subst ht
            decide
          · unfold amendedEncodeChar quoteChar
            rw [if_neg hsp]
            simp only [Bool.or_eq_true, decide_eq_true_eq] at hall ⊢
            rw [if_neg (by tauto), if_neg (by tauto)]
        rw [hA]

theorem fix_url_encoding_eq (p : String) :
    fix_url_encoding p = amendedEncodePath p := by
  by_cases h0 : p = ""
  · subst h0
    decide
  · unfold fix_url_encoding amendedEncodePath
    rw [if_neg h0]
    exact congrArg String.mk (encode_chain (unquoteChars p.data))

/-- The sanitized fragment, when non-empty, has the claimed shape. -/
theorem fix_fragment_shape (f : String) (h : fix_fragment f ≠ "") :
    fragShape (fix_fragment f) = true := by
  by_cases h0 : f = ""
  · rw [h0] at h
    exact absurd (by decide) h
  · rcases hfp : f.data.filter isFragClassChar with _ | ⟨c, rest⟩
    · have hnil : fix_fragment f = "" := by
        unfold fix_fragment
        rw [if_neg h0, hfp]
      exact absurd hnil h
    · have hval : fix_fragment f =
          if (c.isAlpha || decide (c = '_')) = true then (⟨c :: rest⟩ : String)
          else ⟨'_' :: c :: rest⟩ := by
        unfold fix_fragment
        rw [if_neg h0, hfp]
      have hcls : ∀ x ∈ c :: rest, isFragClassChar x = true := by
        rw [← hfp]
        exact fun x hx => List.of_mem_filter hx
      rw [hval]
      by_cases hc : (c.isAlpha || decide (c = '_')) = true
      · rw [if_pos hc]
        show ((c.isAlpha || decide (c = '_')) && rest.all isFragClassChar) = true
        simp only [Bool.and_eq_true, List.all_eq_true]
        exact ⟨hc, fun x hx => hcls x (List.mem_cons_of_mem _ hx)⟩
      · rw [if_neg hc]
        show (('_'.isAlpha || decide ('_' = '_')) && (c :: rest).all isFragClassChar)
          = true
        simp only [Bool.and_eq_true, List.all_eq_true]
        exact ⟨by decide, fun x hx => hcls x hx⟩

/-- C7 (counterexample): the claim says every character outside
alnum/`-_./%#` is percent-escaped, but `urllib.parse.quote` never escapes
the always-safe tilde: the internal link `a~b` is returned unchanged, while
the claimed rule would produce `a%7Eb`. -/
theorem C7_counterexample :
    fix_link none (fun _ => false) (fun _ => none) "a~b" = "a~b" ∧
    claimEncodePath "a~b" = "a%7Eb" ∧
    fix_link none (fun _ => false) (fun _ => none) "a~b" ≠ claimEncodePath "a~b" := by
  refine ⟨by decide, by decide, by decide⟩

/-- C7 (amended): for every internal (non-external-scheme) link and no
content root, the fix re-encodes the path with the claimed character rule
amended by the tilde (spaces to `%20`; alnum, `-_./%#` and the always-safe
`~` pass through; every other character percent-escaped byte-wise), the
fragment is sanitized to the shape `[A-Za-z_][\w\-.:]*` (an invalid leading
character gets an injected underscore) and dropped when empty; and the link
`chapter 1.xhtml` becomes `chapter%201.xhtml` with no fragment. -/
theorem C7_fix_link_encoding (isfile : String → Bool)
    (listdir : String → Option (List String)) (href : String)
    (h0 : href ≠ "") (hext : (urlparse href).scheme ∉ EXTERNAL_SCHEMES) :
    fix_link none isfile listdir href =
      (if fix_fragment (urlparse href).fragment ≠ "" then
        amendedEncodePath ((urlparse href).path) ++ "#" ++
          fix_fragment ((urlparse href).fragment)
       else amendedEncodePath ((urlparse href).path)) ∧
    (fix_fragment ((urlparse href).fragment) ≠ "" →
      fragShape (fix_fragment ((urlparse href).fragment)) = true) ∧
    fix_link none isfile listdir "chapter 1.xhtml" = "chapter%201.xhtml" := by
  refine ⟨?_, fix_fragment_shape _, by rfl⟩
  unfold fix_link
  rw [if_neg h0, if_neg hext, fix_url_encoding_eq]

/-- C4: the marker `ch0011-c1-bib-0007` parses to chapter code `ch0011` with
bib number `0007`, displayed as `7` (leading zeros stripped); and for
`<citation>ch0011-c1-bib-0001</citation>` in a document with no detectable
References section and filename `ch0011.xml`, the emitted hyperlink target
is `ch0011#ch0011s009000-5` with label `1`. -/
theorem C4_citation_fix :
    (∀ dc : Option String,
      parse_citation_id "ch0011-c1-bib-0007" dc = (some "ch0011", some "0007")) ∧
    displayNum (some "0007") "ch0011-c1-bib-0007" = "7" ∧
    fix_citations_in_content "<citation>ch0011-c1-bib-0001</citation>"
        "ch0011.xml" =
      ("<ulink url=\"ch0011#ch0011s009000-5\">1</ulink>",
       [{ original := "<citation>ch0011-c1-bib-0001</citation>",
          replacement := "<ulink url=\"ch0011#ch0011s009000-5\">1</ulink>",
          citation_id := "ch0011-c1-bib-0001",
          ref_target := "ch0011s009000-5",
          chapter := some "ch0011", bib_num := some "0001" }]) :=
  ⟨fun _ => rfl, by decide, by decide⟩

set_option maxRecDepth 8192 in
/-- C5: `_normalize_bib_id` computes exactly the claimed canonical id
(chapter code from the entry's own id else the container, sequence from the
id's trailing number else the running counter, `bib` + 4-digit padding); the
no-id branch uses the counter with the same format; and in the concrete
container with chapter `ch0020`, the third entry (which has no id) is
assigned `ch0020-bib0003` and recorded as an `id_add` change. -/
theorem C5_reference_ids :
    (∀ (cur : String) (ch : Option String) (n : Nat),
      normalize_bib_id cur ch n = specCanonicalId (some cur) ch n) ∧
    (∀ (c : String) (n : Nat),
      c ++ "-bib" ++ pad4 n = specCanonicalId none (some c) n) ∧
    (∀ n : Nat, "bib" ++ pad4 n = specCanonicalId none none n) ∧
    fix_bibliography_section
        "<bibliography id=\"ch0020\"><bibliomixed id=\"ch0020-bib0001\">a</bibliomixed><bibliomixed id=\"ch0020-bib0002\">b</bibliomixed><bibliomixed>c</bibliomixed></bibliography>"
        none =
      ("<bibliography id=\"ch0020\"><bibliomixed id=\"ch0020-bib0001\">a</bibliomixed><bibliomixed id=\"ch0020-bib0002\">b</bibliomixed><bibliomixed id=\"ch0020-bib0003\">c</bibliomixed></bibliography>",
       [{ type := "id_add", original_id := none,
          new_id := "ch0020-bib0003", entry_num := 3 }]) :=
  ⟨fun _ _ _ => rfl, fun _ _ => rfl, fun _ => rfl, by decide⟩

/-! ### C9: the analysis passes do not mutate the structure -/

/-- `_flatten_items` only appends freshly allocated copies: the input heap
is an intact prefix of the output heap. -/
theorem flattenM_extends : ∀ (fuel : Nat) (σ : List ItemRec)
    (addrs : List Nat) (lvl : Nat),
    ∃ ext, (flattenM fuel σ addrs lvl).1 = σ ++ ext := by
  intro fuel
  induction fuel with
  | zero =>
    intro σ addrs lvl
    exact ⟨[], by cases addrs <;> simp [flattenM]⟩
  | succ f ih =>
    intro σ addrs lvl
    cases addrs with
    | nil => exact ⟨[], by simp [flattenM]⟩
    | cons a rest =>
      simp only [flattenM]
      split
      · obtain ⟨e1, he1⟩ :=
          ih (σ ++ [{ getRec σ a with level := lvl, children := [] }])
            (getRec σ a).children (lvl + 1)
        obtain ⟨e2, he2⟩ := ih _ rest lvl
        refine ⟨[{ getRec σ a with level := lvl, children := [] }] ++ e1 ++ e2, ?_⟩
        rw [he2, he1]
        simp
      · obtain ⟨e2, he2⟩ := ih _ rest lvl
        refine ⟨[{ getRec σ a with level := lvl, children := [] }] ++ e2, ?_⟩
        rw [he2]
        simp

/-- `_analyze_items_links` never writes to the heap. -/
theorem link_analyze_itemsM_fst : ∀ (fuel : Nat) (base : Option String)
    (isfile : String → Bool) (listdir : String → Option (List String))
    (fragOracle : String → String → Bool) (σ : List ItemRec)
    (addrs : List Nat) (acc : List LinkIssue),
    (link_analyze_itemsM base isfile listdir fragOracle fuel σ addrs acc).1
      = σ := by
  intro fuel
  induction fuel with
  | zero =>
    intro base isfile listdir fragOracle σ addrs acc
    cases addrs <;> rfl
  | succ f ih =>
    intro base isfile listdir fragOracle σ addrs acc
    cases addrs with
    | nil => rfl
    | cons a rest =>
      simp only [link_analyze_itemsM]
      split <;> simp [ih]

/-- C9: the analysis operations do not mutate the structure they inspect.
On the heap model, `NestingFixer.analyze_issues` only ever appends the
fresh records allocated by `_flatten_items` — every record of the input
heap stays intact at its original address — and `LinkFixer.analyze_issues`
returns the heap exactly unchanged, while both return their issue lists. -/
theorem C9_analyze_non_mutation (fuel : Nat) (σ : List ItemRec)
    (items : List Nat) (base : Option String) (isfile : String → Bool)
    (listdir : String → Option (List String))
    (fragOracle : String → String → Bool) :
    (∃ ext, (nesting_analyze_issuesM fuel σ items).1 = σ ++ ext) ∧
    (link_analyze_issuesM base isfile listdir fragOracle fuel σ items).1
      = σ := by
  constructor
  · obtain ⟨ext, hext⟩ := flattenM_extends fuel σ items 0
    exact ⟨ext, hext⟩
  · exact link_analyze_itemsM_fst fuel base isfile listdir fragOracle σ items []

/-- Witness instantiating the C7 theorem on the claim's concrete link
`chapter 1.xhtml` with no content root. -/
theorem C7_fix_link_encoding_witness :
    ("chapter 1.xhtml" ≠ "" ∧
      (urlparse "chapter 1.xhtml").scheme ∉ EXTERNAL_SCHEMES) ∧
    (fix_link none (fun _ => false) (fun _ => none) "chapter 1.xhtml" =
      (if fix_fragment (urlparse "chapter 1.xhtml").fragment ≠ "" then
        amendedEncodePath ((urlparse "chapter 1.xhtml").path) ++ "#" ++
          fix_fragment ((urlparse "chapter 1.xhtml").fragment)
       else amendedEncodePath ((urlparse "chapter 1.xhtml").path)) ∧
     (fix_fragment ((urlparse "chapter 1.xhtml").fragment) ≠ "" →
       fragShape (fix_fragment ((urlparse "chapter 1.xhtml").fragment))
         = true) ∧
     fix_link none (fun _ => false) (fun _ => none) "chapter 1.xhtml" =
       "chapter%201.xhtml") :=
  ⟨⟨by decide, by decide⟩,
   C7_fix_link_encoding (fun _ => false) (fun _ => none) "chapter 1.xhtml"
     (by decide) (by decide)⟩
